import Mathlib

set_option maxRecDepth 8192

/-!
Verification development for the shastity backup tool (Python 2 source).

Text is modelled at two levels, mirroring the source's character-string /
byte-string distinction (doc of `spencode.py`):
* unicode character strings are `List Char` (Lean `Char` = Unicode scalar value);
* byte strings are `List Nat` with every element `< 256`;
* ASCII text (manifest lines, mode strings, encoded paths) is `List Char`.

Python string primitives (`str.split`, `str.strip`, `str.join`, `int()`,
`'%d' %`) are modelled by the explicit functions below.
-/

/-- The six whitespace characters of Python's `str.strip()` / `str.split()`
(space, tab, newline, carriage return, vertical tab, form feed). -/
def pySpaceChars : List Char := [' ', '\t', '\n', '\r', '\x0b', '\x0c']

def isPySpace (c : Char) : Bool := pySpaceChars.contains c

/-- Python `s.strip()`: remove leading and trailing whitespace. -/
def pyStrip (l : List Char) : List Char :=
  ((l.dropWhile isPySpace).reverse.dropWhile isPySpace).reverse

/-- Python `s.split()` (no separator): maximal runs of non-whitespace, empty
tokens dropped.  `acc` is the reversed current token. -/
def pySplitWsAux : List Char → List Char → List (List Char)
  | [], acc => if acc = [] then [] else [acc.reverse]
  | c :: rest, acc =>
    if isPySpace c then
      if acc = [] then pySplitWsAux rest [] else acc.reverse :: pySplitWsAux rest []
    else pySplitWsAux rest (c :: acc)

def pySplitWs (l : List Char) : List (List Char) := pySplitWsAux l []

/-- Python `sep.join(parts)` for a one-character separator. -/
def pyJoin (sep : Char) : List (List Char) → List Char
  | [] => []
  | [t] => t
  | t :: rest => t ++ sep :: pyJoin sep rest

/-- Python `s.split(sep)` for a one-character separator: split at every
occurrence, keeping empty parts (always at least one part). -/
def pySplitChar (sep : Char) : List Char → List (List Char)
  | [] => [[]]
  | c :: rest =>
    if c = sep then [] :: pySplitChar sep rest
    else
      match pySplitChar sep rest with
      | h :: t => (c :: h) :: t
      | [] => [[c]]

/-- Decimal digits of `n`, least significant first (`[]` for 0).  The first
argument is fuel, instantiated with `n` itself, so that the function is
structurally recursive and kernel-reducible. -/
def natDigitsAux : Nat → Nat → List Nat
  | 0, _ => []
  | fuel + 1, n => if n = 0 then [] else n % 10 :: natDigitsAux fuel (n / 10)

def natDigits (n : Nat) : List Nat := natDigitsAux n n

def digitChar (d : Nat) : Char := Char.ofNat (48 + d)

/-- Python `'%d' % n` for a natural number. -/
def natToChars (n : Nat) : List Char :=
  if n = 0 then ['0'] else ((natDigits n).map digitChar).reverse

/-- Python `'%d' % i` (negative numbers print with a leading minus sign). -/
def intToChars (i : Int) : List Char :=
  if i < 0 then '-' :: natToChars (-i).toNat else natToChars i.toNat

def digitVal (c : Char) : Option Nat :=
  if 48 ≤ c.toNat ∧ c.toNat ≤ 57 then some (c.toNat - 48) else none

def parseNatAux : List Char → Nat → Option Nat
  | [], acc => some acc
  | c :: cs, acc =>
    match digitVal c with
    | some d => parseNatAux cs (10 * acc + d)
    | none => none

/-- Python `int(s)` on an unsigned decimal string (error from `int('')`
modelled as `none`). -/
def parseNatChars (l : List Char) : Option Nat :=
  if l = [] then none else parseNatAux l 0

/-- Python `int(s)` including an optional sign. -/
def parseIntChars (l : List Char) : Option Int :=
  match l with
  | '-' :: rest => (parseNatChars rest).map (fun n : Nat => -(n : Int))
  | '+' :: rest => (parseNatChars rest).map (fun n : Nat => (n : Int))
  | _ => (parseNatChars l).map (fun n : Nat => (n : Int))

/-! ### Round-trip lemmas for the decimal codec -/

theorem natDigitsAux_eq (fuel n : Nat) (h : n ≤ fuel) :
    natDigitsAux fuel n = Nat.digits 10 n := by
  induction fuel generalizing n with
  | zero =>
    interval_cases n
    simp [natDigitsAux]
  | succ f ih =>
    by_cases hn : n = 0
    · simp [natDigitsAux, hn]
    · rw [natDigitsAux, if_neg hn, ih (n / 10) (by omega),
        Nat.digits_def' (by norm_num : 1 < 10) (Nat.pos_of_ne_zero hn)]

theorem natDigits_eq (n : Nat) : natDigits n = Nat.digits 10 n :=
  natDigitsAux_eq n n le_rfl

theorem digitVal_digitChar (d : Nat) (h : d < 10) :
    digitVal (digitChar d) = some d := by
  interval_cases d <;> decide

theorem digitChar_range (d : Nat) (h : d < 10) :
    48 ≤ (digitChar d).toNat ∧ (digitChar d).toNat ≤ 57 := by
  interval_cases d <;> decide

theorem parseNatAux_append (xs : List Char) (c : Char) (acc : Nat) :
    parseNatAux (xs ++ [c]) acc =
      (parseNatAux xs acc).bind fun a => (digitVal c).map fun d => 10 * a + d := by
  induction xs generalizing acc with
  | nil =>
    simp only [List.nil_append, parseNatAux, Option.bind]
    cases digitVal c <;> simp [parseNatAux]
  | cons x xs ih =>
    simp only [List.cons_append, parseNatAux]
    cases digitVal x <;> simp [ih]

theorem parseNatAux_digits (ds : List Nat) (acc : Nat) (h : ∀ d ∈ ds, d < 10) :
    parseNatAux ((ds.map digitChar).reverse) acc =
      some (acc * 10 ^ ds.length + Nat.ofDigits 10 ds) := by
  induction ds generalizing acc with
  | nil => simp [parseNatAux, Nat.ofDigits]
  | cons d ds ih =>
    have hd : d < 10 := h d (by simp)
    rw [List.map_cons, List.reverse_cons, parseNatAux_append,
      ih acc (fun x hx => h x (by simp [hx]))]
    simp only [digitVal_digitChar d hd, Option.some_bind, Option.map_some',
      Option.some.injEq, Nat.ofDigits_cons, List.length_cons]
    ring

theorem parseNatChars_natToChars (n : Nat) :
    parseNatChars (natToChars n) = some n := by
  by_cases hn : n = 0
  · subst hn; decide
  · have hne : Nat.digits 10 n ≠ [] := Nat.digits_ne_nil_iff_ne_zero.mpr hn
    rw [natToChars, if_neg hn, parseNatChars, if_neg ?nonempty]
    case nonempty =>
      rw [natDigits_eq]
      intro hcon
      exact hne (by simpa using congrArg List.reverse (by simpa using hcon))
    rw [natDigits_eq,
      parseNatAux_digits _ 0 (fun d hd => Nat.digits_lt_base (by norm_num) hd)]
    simp [Nat.ofDigits_digits]

theorem natToChars_all_digits (n : Nat) :
    ∀ c ∈ natToChars n, 48 ≤ c.toNat ∧ c.toNat ≤ 57 := by
  intro c hc
  by_cases hn : n = 0
  · subst hn
    simp [natToChars] at hc
    subst hc; decide
  · rw [natToChars, if_neg hn, natDigits_eq] at hc
    simp only [List.mem_reverse, List.mem_map] at hc
    obtain ⟨d, hd, rfl⟩ := hc
    exact digitChar_range d (Nat.digits_lt_base (by norm_num) hd)

theorem parseIntChars_cons_of_ne (c : Char) (cs : List Char)
    (h1 : c ≠ '-') (h2 : c ≠ '+') :
    parseIntChars (c :: cs) = (parseNatChars (c :: cs)).map (fun n : Nat => (n : Int)) := by
  rw [parseIntChars.eq_def]
  split
  · rename_i heq
    rw [List.cons.injEq] at heq
    exact absurd heq.1 h1
  · rename_i heq
    rw [List.cons.injEq] at heq
    exact absurd heq.1 h2
  · rfl

theorem parseIntChars_intToChars (i : Int) :
    parseIntChars (intToChars i) = some i := by
  by_cases hi : i < 0
  · rw [intToChars, if_pos hi]
    have : parseIntChars ('-' :: natToChars (-i).toNat) =
        (parseNatChars (natToChars (-i).toNat)).map (fun n : Nat => -(n : Int)) := rfl
    rw [this, parseNatChars_natToChars]
    simp only [Option.map_some', Option.some.injEq]
    omega
  · rw [intToChars, if_neg hi]
    have hhead : ∀ c ∈ natToChars i.toNat, c ≠ '-' ∧ c ≠ '+' := by
      intro c hc
      have := natToChars_all_digits i.toNat c hc
      constructor <;> (intro h; subst h; revert this; decide)
    have hparse := parseNatChars_natToChars i.toNat
    rcases hlist : natToChars i.toNat with _ | ⟨c, cs⟩
    · rw [hlist] at hparse
      simp [parseNatChars] at hparse
    · rw [hlist] at hparse
      rw [parseIntChars_cons_of_ne c cs (hhead c (by simp [hlist])).1
        (hhead c (by simp [hlist])).2, hparse]
      simp only [Option.map_some', Option.some.injEq]
      omega

/-! ### shastity/spencode.py

`_safechars` is copied verbatim from the source (note: it contains neither
`w` nor `W`).  Byte strings are `List Nat`; the encoded ASCII result is
`List Char`. -/

def safechars : List Char :=
  "abcdefghijklmnopqrstuvxyzABCDEFGHIJKLMNOPQRSTUVXYZ0123456789_-:.".toList

def safeBytes : List Nat := safechars.map Char.toNat

/-- One hex digit of `'%%%02X' % b` (uppercase, as `%02X` prints). -/
def hexDigitChar (d : Nat) : Char :=
  Char.ofNat (if d < 10 then 48 + d else 55 + d)

/-- `_enc_map` applied to one byte: itself if safe, else `%XX`. -/
def urlencByte (b : Nat) : List Char :=
  if b ∈ safeBytes then [Char.ofNat b]
  else ['%', hexDigitChar (b / 16), hexDigitChar (b % 16)]

/-- `_urlenc`: encode every byte of the byte string. -/
def urlenc (bs : List Nat) : List Char := bs.flatMap urlencByte

/-- One hex digit as accepted by Python `int(x, 16)`. -/
def hexVal (c : Char) : Option Nat :=
  if 48 ≤ c.toNat ∧ c.toNat ≤ 57 then some (c.toNat - 48)
  else if 65 ≤ c.toNat ∧ c.toNat ≤ 70 then some (c.toNat - 55)
  else if 97 ≤ c.toNat ∧ c.toNat ≤ 102 then some (c.toNat - 87)
  else none

/- `_urldec` is implemented by splitting on `%`; the scan below is the same
computation. -/
mutual

/-- `_urldec`: every `%` must be followed by two hex digits which decode to a
byte; all other characters stand for their own code. -/
def urldec : List Char → Option (List Nat)
  | [] => some []
  | c :: rest =>
    if c = '%' then urldecPct rest
    else (urldec rest).map fun bs => c.toNat :: bs

/-- The two characters after a `%` (the head of a `split('%')` part): decoded
as a hex byte, with the scan continuing after them. -/
def urldecPct : List Char → Option (List Nat)
  | c1 :: c2 :: rest2 =>
    match hexVal c1, hexVal c2 with
    | some h1, some h2 => (urldec rest2).map fun bs => (16 * h1 + h2) :: bs
    | _, _ => none
  | _ => none

end

/-- UTF-8 encoding of one Unicode code point (Python `unicode.encode('utf-8')`). -/
def utf8EncodeCp (n : Nat) : List Nat :=
  if n < 0x80 then [n]
  else if n < 0x800 then [0xC0 + n / 0x40, 0x80 + n % 0x40]
  else if n < 0x10000 then
    [0xE0 + n / 0x1000, 0x80 + (n / 0x40) % 0x40, 0x80 + n % 0x40]
  else
    [0xF0 + n / 0x40000, 0x80 + (n / 0x1000) % 0x40,
      0x80 + (n / 0x40) % 0x40, 0x80 + n % 0x40]

def utf8Encode (s : List Char) : List Nat :=
  s.flatMap fun c => utf8EncodeCp c.toNat

/- Strict UTF-8 decoding to code points (Python `str.decode('utf-8')`):
rejects bad lead/continuation bytes, overlong forms and surrogates.  The
helpers handle the continuation bytes of 2-, 3- and 4-byte sequences. -/
mutual

def utf8Decode : List Nat → Option (List Nat)
  | [] => some []
  | b :: rest =>
    if b < 0x80 then (utf8Decode rest).map fun ns => b :: ns
    else if b < 0xC2 then none
    else if b < 0xE0 then utf8DecTail1 b rest
    else if b < 0xF0 then utf8DecTail2 b rest
    else if b < 0xF5 then utf8DecTail3 b rest
    else none

def utf8DecTail1 (b : Nat) : List Nat → Option (List Nat)
  | c1 :: rest1 =>
    if 0x80 ≤ c1 ∧ c1 < 0xC0 then
      (utf8Decode rest1).map fun ns => ((b - 0xC0) * 0x40 + (c1 - 0x80)) :: ns
    else none
  | _ => none

def utf8DecTail2 (b : Nat) : List Nat → Option (List Nat)
  | c1 :: c2 :: rest2 =>
    if 0x80 ≤ c1 ∧ c1 < 0xC0 ∧ 0x80 ≤ c2 ∧ c2 < 0xC0 then
      let n := (b - 0xE0) * 0x1000 + (c1 - 0x80) * 0x40 + (c2 - 0x80)
      if 0x800 ≤ n ∧ ¬(0xD800 ≤ n ∧ n < 0xE000) then
        (utf8Decode rest2).map fun ns => n :: ns
      else none
    else none
  | _ => none

def utf8DecTail3 (b : Nat) : List Nat → Option (List Nat)
  | c1 :: c2 :: c3 :: rest3 =>
    if 0x80 ≤ c1 ∧ c1 < 0xC0 ∧ 0x80 ≤ c2 ∧ c2 < 0xC0 ∧ 0x80 ≤ c3 ∧ c3 < 0xC0 then
      let n := (b - 0xF0) * 0x40000 + (c1 - 0x80) * 0x1000 +
        (c2 - 0x80) * 0x40 + (c3 - 0x80)
      if 0x10000 ≤ n ∧ n < 0x110000 then
        (utf8Decode rest3).map fun ns => n :: ns
      else none
    else none
  | _ => none

end

/-- `spencode(s)`: UTF-8 encode, percent-escape, wrap in single quotes. -/
def spencode (s : List Char) : List Char :=
  '\'' :: urlenc (utf8Encode s) ++ ['\'']

/-- `spdecode(s)`: check and strip the quotes, percent-unescape, UTF-8 decode
(the source's asserts and decode errors are modelled as `none`). -/
def spdecode (l : List Char) : Option (List Char) :=
  if 2 ≤ l.length ∧ l.head? = some '\'' ∧ l.getLast? = some '\'' then
    match urldec (l.drop 1).dropLast with
    | some bs => (utf8Decode bs).map (List.map Char.ofNat)
    | none => none
  else none

/-! ### Round trip of the percent layer -/

theorem safeBytes_spec (b : Nat) (h : b ∈ safeBytes) :
    Char.ofNat b ≠ '%' ∧ (Char.ofNat b).toNat = b ∧ b < 128 := by
  revert h
  have : ∀ b ∈ safeBytes, Char.ofNat b ≠ '%' ∧ (Char.ofNat b).toNat = b ∧ b < 128 := by
    decide
  exact this b

theorem hexVal_hexDigitChar (d : Nat) (h : d < 16) :
    hexVal (hexDigitChar d) = some d ∧ hexDigitChar d ≠ '%' := by
  interval_cases d <;> exact ⟨by decide, by decide⟩

theorem urldec_urlenc (bs : List Nat) (h : ∀ b ∈ bs, b < 256) :
    urldec (urlenc bs) = some bs := by
  induction bs with
  | nil => rfl
  | cons b rest ih =>
    have hrest := ih fun x hx => h x (List.mem_cons_of_mem b hx)
    have hb : b < 256 := h b (List.mem_cons_self b rest)
    show urldec (urlencByte b ++ urlenc rest) = some (b :: rest)
    by_cases hsafe : b ∈ safeBytes
    · obtain ⟨hne, htn, _⟩ := safeBytes_spec b hsafe
      rw [urlencByte, if_pos hsafe]
      show urldec (Char.ofNat b :: urlenc rest) = some (b :: rest)
      rw [urldec, if_neg hne, hrest]
      simp only [Option.map_some', htn]
    · rw [urlencByte, if_neg hsafe]
      obtain ⟨hv1, _⟩ := hexVal_hexDigitChar (b / 16) (by omega)
      obtain ⟨hv2, _⟩ := hexVal_hexDigitChar (b % 16) (by omega)
      show urldec ('%' :: hexDigitChar (b / 16) :: hexDigitChar (b % 16) ::
        urlenc rest) = some (b :: rest)
      rw [urldec, if_pos rfl]
      simp only [urldecPct, hv1, hv2, hrest, Option.map_some']
      have hbeq : 16 * (b / 16) + b % 16 = b := by omega
      rw [hbeq]

/-! ### Round trip of the UTF-8 layer -/

theorem char_toNat_valid (c : Char) :
    c.toNat < 0xD800 ∨ (0xE000 ≤ c.toNat ∧ c.toNat < 0x110000) := by
  have h := c.valid
  simp only [UInt32.isValidChar, Nat.isValidChar, UInt32.lt_def, UInt32.le_def] at h
  rcases h with h | ⟨h1, h2⟩
  · left
    have h' : c.toNat < (55296 : UInt32).toNat := h
    simpa using h'
  · right
    have h1' : (57344 : UInt32).toNat ≤ c.toNat := h1
    have h2' : c.toNat < (1114112 : UInt32).toNat := h2
    exact ⟨by simpa using h1', by simpa using h2'⟩

theorem utf8Decode_ascii (b : Nat) (rest : List Nat) (h : b < 0x80) :
    utf8Decode (b :: rest) = (utf8Decode rest).map fun ns => b :: ns := by
  rw [utf8Decode, if_pos h]

theorem utf8Decode_two (b c1 : Nat) (rest : List Nat)
    (hb1 : 0xC2 ≤ b) (hb2 : b < 0xE0) (hc : 0x80 ≤ c1 ∧ c1 < 0xC0) :
    utf8Decode (b :: c1 :: rest) =
      (utf8Decode rest).map fun ns => ((b - 0xC0) * 0x40 + (c1 - 0x80)) :: ns := by
  rw [utf8Decode, if_neg (by omega), if_neg (by omega), if_pos hb2,
    utf8DecTail1, if_pos hc]

theorem utf8Decode_three (b c1 c2 : Nat) (rest : List Nat)
    (hb1 : 0xE0 ≤ b) (hb2 : b < 0xF0)
    (hc : 0x80 ≤ c1 ∧ c1 < 0xC0 ∧ 0x80 ≤ c2 ∧ c2 < 0xC0)
    (hn : 0x800 ≤ (b - 0xE0) * 0x1000 + (c1 - 0x80) * 0x40 + (c2 - 0x80) ∧
      ¬(0xD800 ≤ (b - 0xE0) * 0x1000 + (c1 - 0x80) * 0x40 + (c2 - 0x80) ∧
        (b - 0xE0) * 0x1000 + (c1 - 0x80) * 0x40 + (c2 - 0x80) < 0xE000)) :
    utf8Decode (b :: c1 :: c2 :: rest) =
      (utf8Decode rest).map fun ns =>
        ((b - 0xE0) * 0x1000 + (c1 - 0x80) * 0x40 + (c2 - 0x80)) :: ns := by
  rw [utf8Decode, if_neg (by omega), if_neg (by omega), if_neg (by omega),
    if_pos hb2, utf8DecTail2, if_pos hc]
  simp only [if_pos hn]

theorem utf8Decode_four (b c1 c2 c3 : Nat) (rest : List Nat)
    (hb1 : 0xF0 ≤ b) (hb2 : b < 0xF5)
    (hc : 0x80 ≤ c1 ∧ c1 < 0xC0 ∧ 0x80 ≤ c2 ∧ c2 < 0xC0 ∧ 0x80 ≤ c3 ∧ c3 < 0xC0)
    (hn : 0x10000 ≤ (b - 0xF0) * 0x40000 + (c1 - 0x80) * 0x1000 +
        (c2 - 0x80) * 0x40 + (c3 - 0x80) ∧
      (b - 0xF0) * 0x40000 + (c1 - 0x80) * 0x1000 +
        (c2 - 0x80) * 0x40 + (c3 - 0x80) < 0x110000) :
    utf8Decode (b :: c1 :: c2 :: c3 :: rest) =
      (utf8Decode rest).map fun ns =>
        ((b - 0xF0) * 0x40000 + (c1 - 0x80) * 0x1000 +
          (c2 - 0x80) * 0x40 + (c3 - 0x80)) :: ns := by
  rw [utf8Decode, if_neg (by omega), if_neg (by omega), if_neg (by omega),
    if_neg (by omega), if_pos hb2, utf8DecTail3, if_pos hc]
  simp only [if_pos hn]

theorem utf8EncodeCp_lt_256 (n : Nat) (h : n < 0x110000) :
    ∀ b ∈ utf8EncodeCp n, b < 256 := by
  intro b hb
  rw [utf8EncodeCp] at hb
  split_ifs at hb <;> simp only [List.mem_cons, List.mem_singleton,
    List.not_mem_nil, or_false] at hb <;> omega

theorem utf8Encode_lt_256 (s : List Char) : ∀ b ∈ utf8Encode s, b < 256 := by
  intro b hb
  rw [utf8Encode] at hb
  simp only [List.mem_flatMap] at hb
  obtain ⟨c, _, hbc⟩ := hb
  have hv := char_toNat_valid c
  exact utf8EncodeCp_lt_256 c.toNat (by omega) b hbc

theorem utf8Decode_encode_cons (c : Char) (rest : List Nat) :
    utf8Decode (utf8EncodeCp c.toNat ++ rest) =
      (utf8Decode rest).map fun ns => c.toNat :: ns := by
  have hv := char_toNat_valid c
  set n := c.toNat with hn
  by_cases h1 : n < 0x80
  · rw [utf8EncodeCp, if_pos h1]
    simpa using utf8Decode_ascii n rest h1
  · by_cases h2 : n < 0x800
    · rw [utf8EncodeCp, if_neg h1, if_pos h2]
      have := utf8Decode_two (0xC0 + n / 0x40) (0x80 + n % 0x40) rest
        (by omega) (by omega) (by omega)
      simp only [List.cons_append, List.nil_append] at this ⊢
      rw [this]
      have heq : (0xC0 + n / 0x40 - 0xC0) * 0x40 + (0x80 + n % 0x40 - 0x80) = n := by
        omega
      rw [heq]
    · by_cases h3 : n < 0x10000
      · rw [utf8EncodeCp, if_neg h1, if_neg h2, if_pos h3]
        have := utf8Decode_three (0xE0 + n / 0x1000) (0x80 + (n / 0x40) % 0x40)
          (0x80 + n % 0x40) rest (by omega) (by omega) (by omega) (by omega)
        simp only [List.cons_append, List.nil_append] at this ⊢
        rw [this]
        have heq : (0xE0 + n / 0x1000 - 0xE0) * 0x1000 +
            (0x80 + (n / 0x40) % 0x40 - 0x80) * 0x40 + (0x80 + n % 0x40 - 0x80) = n := by
          omega
        rw [heq]
      · rw [utf8EncodeCp, if_neg h1, if_neg h2, if_neg h3]
        have := utf8Decode_four (0xF0 + n / 0x40000) (0x80 + (n / 0x1000) % 0x40)
          (0x80 + (n / 0x40) % 0x40) (0x80 + n % 0x40) rest
          (by omega) (by omega) (by omega) (by omega)
        simp only [List.cons_append, List.nil_append] at this ⊢
        rw [this]
        have heq : (0xF0 + n / 0x40000 - 0xF0) * 0x40000 +
            (0x80 + (n / 0x1000) % 0x40 - 0x80) * 0x1000 +
            (0x80 + (n / 0x40) % 0x40 - 0x80) * 0x40 + (0x80 + n % 0x40 - 0x80) = n := by
          omega
        rw [heq]

theorem utf8Decode_utf8Encode (s : List Char) :
    utf8Decode (utf8Encode s) = some (s.map Char.toNat) := by
  induction s with
  | nil => rfl
  | cons c rest ih =>
    show utf8Decode (utf8EncodeCp c.toNat ++ utf8Encode rest) = _
    rw [utf8Decode_encode_cons, ih]
    rfl

/-! ### Claims C7 and C8 -/

theorem spdecode_spencode (s : List Char) :
    spdecode (spencode s) = some s := by
  have hmid := urldec_urlenc (utf8Encode s) (utf8Encode_lt_256 s)
  have hshape : spencode s = ('\'' :: urlenc (utf8Encode s)) ++ ['\''] := by
    simp [spencode]
  rw [hshape, spdecode, if_pos ?hcond]
  case hcond =>
    refine ⟨by simp, by simp, ?_⟩
    rw [List.getLast?_concat]
  have hdrop : ((('\'' : Char) :: urlenc (utf8Encode s)) ++ ['\'']).drop 1 =
      urlenc (utf8Encode s) ++ ['\''] := by simp
  rw [hdrop, List.dropLast_concat, hmid]
  show (utf8Decode (utf8Encode s)).map (List.map Char.ofNat) = some s
  rw [utf8Decode_utf8Encode]
  simp only [Option.map_some', Option.some.injEq, List.map_map]
  exact List.map_id'' Char.ofNat_toNat s

/-- C7: for every Unicode string `s` (every list of Unicode scalar values,
including the empty string), `spdecode(spencode(s)) == s`: UTF-8 encoding,
percent-escaping and quote-wrapping followed by quote-stripping,
percent-unescaping and UTF-8 decoding is the identity. -/
theorem spencode_spdecode_roundtrip (s : List Char) :
    spdecode (spencode s) = some s :=
  spdecode_spencode s

/-- The safe alphabet exactly as the spec claims it: `[A-Za-z0-9_\-:.]`. -/
def specSafeAlphabet : List Char :=
  "ABCDEFGHIJKLMNOPQRSTUVWXYZabcdefghijklmnopqrstuvwxyz0123456789_-:.".toList

/-- The sixteen characters `%02X` can produce. -/
def hexOutChars : List Char := "0123456789ABCDEF".toList

/-- C8, counterexample: `w` is in the alphabet `[A-Za-z0-9_\-:.]` claimed to
be safe, yet `spencode` escapes it: the encoding of the one-character string
`"w"` is `'%77'`, and `w` does not occur in it. -/
theorem spencode_escapes_w :
    'w' ∈ specSafeAlphabet ∧
      spencode ['w'] = ['\'', '%', '7', '7', '\''] ∧
      'w' ∉ spencode ['w'] := by decide

/-- C8 as amended: `spencode` percent-escapes exactly the bytes outside the
source's `_safechars` alphabet, which is `[A-Za-z0-9_\-:.]` **minus `w` and
`W`**: the output is the concatenation, wrapped in single quotes, of one
token per UTF-8 byte of the input; a safe byte is emitted as itself and any
other byte as `%` followed by two uppercase hex digits. -/
theorem spencode_escapes_exactly_safechars :
    (∀ b, b < 256 →
      (b ∈ safeBytes ↔ (Char.ofNat b ∈ specSafeAlphabet ∧ b ≠ 119 ∧ b ≠ 87))) ∧
    (∀ s, spencode s = '\'' :: (utf8Encode s).flatMap urlencByte ++ ['\'']) ∧
    (∀ b, b ∈ safeBytes → urlencByte b = [Char.ofNat b]) ∧
    (∀ b, b < 256 → b ∉ safeBytes →
      urlencByte b = ['%', hexDigitChar (b / 16), hexDigitChar (b % 16)] ∧
        hexDigitChar (b / 16) ∈ hexOutChars ∧ hexDigitChar (b % 16) ∈ hexOutChars) := by
  refine ⟨?_, fun s => rfl, fun b hb => by rw [urlencByte, if_pos hb], ?_⟩
  · decide
  · intro b hb hns
    refine ⟨by rw [urlencByte, if_neg hns], ?_, ?_⟩
    · have h16 : b / 16 < 16 := by omega
      revert h16
      have : ∀ d, d < 16 → hexDigitChar d ∈ hexOutChars := by decide
      exact this (b / 16)
    · have h16 : b % 16 < 16 := by omega
      revert h16
      have : ∀ d, d < 16 → hexDigitChar d ∈ hexOutChars := by decide
      exact this (b % 16)

theorem spencode_escapes_exactly_safechars_witness :
    (119 < 256 ∧ 119 ∉ safeBytes ∧
      urlencByte 119 = ['%', hexDigitChar 7, hexDigitChar 7]) ∧
    (97 ∈ safeBytes ∧ urlencByte 97 = [Char.ofNat 97]) :=
  ⟨⟨by decide, by decide,
      (spencode_escapes_exactly_safechars.2.2.2 119 (by decide) (by decide)).1⟩,
    ⟨by decide, spencode_escapes_exactly_safechars.2.2.1 97 (by decide)⟩⟩

/-! ### shastity/metadata.py: mode strings -/

/-- The eighteen boolean properties read and written by `mode_to_str` /
`str_to_mode` (field names as in the source). -/
structure ModeBits where
  is_regular : Bool
  is_block_device : Bool
  is_character_device : Bool
  is_directory : Bool
  is_symlink : Bool
  is_fifo : Bool
  user_read : Bool
  user_write : Bool
  user_execute : Bool
  is_setuid : Bool
  group_read : Bool
  group_write : Bool
  group_execute : Bool
  is_setgid : Bool
  other_read : Bool
  other_write : Bool
  other_execute : Bool
  is_sticky : Bool
deriving DecidableEq

/-- The `if/elif` chain choosing the type character; `none` models the
`AssertionError('should not be reachable')` when no type flag is set. -/
def typeChar (d : ModeBits) : Option Char :=
  if d.is_regular then some '-'
  else if d.is_block_device then some 'b'
  else if d.is_character_device then some 'c'
  else if d.is_directory then some 'd'
  else if d.is_symlink then some 'l'
  else if d.is_fifo then some 'p'
  else none

/-- One read/write position: the flag's character or `-`. -/
def rwChar (b : Bool) (ch : Char) : Char := if b then ch else '-'

/-- One execute position, combined with a setuid/setgid/sticky bit:
`x`/`-` without the bit, `lo` (s/t) with execute, `hi` (S/T) without. -/
def execChar (ex sb : Bool) (lo hi : Char) : Char :=
  if ex then (if sb then lo else 'x') else (if sb then hi else '-')

def mode_to_str (d : ModeBits) : Option (List Char) :=
  (typeChar d).map fun tc =>
    [tc, rwChar d.user_read 'r', rwChar d.user_write 'w',
      execChar d.user_execute d.is_setuid 's' 'S',
      rwChar d.group_read 'r', rwChar d.group_write 'w',
      execChar d.group_execute d.is_setgid 's' 'S',
      rwChar d.other_read 'r', rwChar d.other_write 'w',
      execChar d.other_execute d.is_sticky 't' 'T']

/-- The assertions of `str_to_mode` as one predicate: exactly 10 characters,
each from its allowed set (`[-bcdlp][r-][w-][x-sS][r-][w-][x-sS][r-][w-][x-tT]`). -/
def validModeStr (s : List Char) : Bool :=
  match s with
  | [c0, c1, c2, c3, c4, c5, c6, c7, c8, c9] =>
    ['-', 'b', 'c', 'd', 'l', 'p'].contains c0 &&
    ['r', '-'].contains c1 && ['w', '-'].contains c2 &&
    ['x', '-', 's', 'S'].contains c3 &&
    ['r', '-'].contains c4 && ['w', '-'].contains c5 &&
    ['x', '-', 's', 'S'].contains c6 &&
    ['r', '-'].contains c7 && ['w', '-'].contains c8 &&
    ['x', '-', 't', 'T'].contains c9
  | _ => false

/-- `str_to_mode`: assert validity, then decode every flag from its
position's character (an `AssertionError` is modelled as `none`). -/
def str_to_mode (s : List Char) : Option ModeBits :=
  if validModeStr s then
    match s with
    | [c0, c1, c2, c3, c4, c5, c6, c7, c8, c9] =>
      some
        { is_regular := c0 == '-', is_block_device := c0 == 'b',
          is_character_device := c0 == 'c', is_directory := c0 == 'd',
          is_symlink := c0 == 'l', is_fifo := c0 == 'p',
          user_read := c1 == 'r', user_write := c2 == 'w',
          user_execute := (c3 == 'x') || (c3 == 's'),
          is_setuid := (c3 == 's') || (c3 == 'S'),
          group_read := c4 == 'r', group_write := c5 == 'w',
          group_execute := (c6 == 'x') || (c6 == 's'),
          is_setgid := (c6 == 's') || (c6 == 'S'),
          other_read := c7 == 'r', other_write := c8 == 'w',
          other_execute := (c9 == 'x') || (c9 == 't'),
          is_sticky := (c9 == 't') || (c9 == 'T') }
    | _ => none
  else none

/-- Number of type flags set; the data model requires exactly one. -/
def typeFlagCount (d : ModeBits) : Nat :=
  (if d.is_regular then 1 else 0) + (if d.is_block_device then 1 else 0) +
  (if d.is_character_device then 1 else 0) + (if d.is_directory then 1 else 0) +
  (if d.is_symlink then 1 else 0) + (if d.is_fifo then 1 else 0)

theorem contains_rwChar_r (b : Bool) :
    (['r', '-'].contains (rwChar b 'r')) = true := by cases b <;> decide

theorem contains_rwChar_w (b : Bool) :
    (['w', '-'].contains (rwChar b 'w')) = true := by cases b <;> decide

theorem contains_execChar_s (e sb : Bool) :
    (['x', '-', 's', 'S'].contains (execChar e sb 's' 'S')) = true := by
  cases e <;> cases sb <;> decide

theorem contains_execChar_t (e sb : Bool) :
    (['x', '-', 't', 'T'].contains (execChar e sb 't' 'T')) = true := by
  cases e <;> cases sb <;> decide

theorem beq_rwChar_r (b : Bool) : (rwChar b 'r' == 'r') = b := by
  cases b <;> decide

theorem beq_rwChar_w (b : Bool) : (rwChar b 'w' == 'w') = b := by
  cases b <;> decide

theorem execChar_s_ex (e sb : Bool) :
    ((execChar e sb 's' 'S' == 'x') || (execChar e sb 's' 'S' == 's')) = e := by
  cases e <;> cases sb <;> decide

theorem execChar_s_sb (e sb : Bool) :
    ((execChar e sb 's' 'S' == 's') || (execChar e sb 's' 'S' == 'S')) = sb := by
  cases e <;> cases sb <;> decide

theorem execChar_t_ex (e sb : Bool) :
    ((execChar e sb 't' 'T' == 'x') || (execChar e sb 't' 'T' == 't')) = e := by
  cases e <;> cases sb <;> decide

theorem execChar_t_sb (e sb : Bool) :
    ((execChar e sb 't' 'T' == 't') || (execChar e sb 't' 'T' == 'T')) = sb := by
  cases e <;> cases sb <;> decide

theorem rwChar_inv_r (c : Char) (h : (['r', '-'].contains c) = true) :
    rwChar (c == 'r') 'r' = c := by
  simp at h
  rcases h with rfl | rfl <;> decide

theorem rwChar_inv_w (c : Char) (h : (['w', '-'].contains c) = true) :
    rwChar (c == 'w') 'w' = c := by
  simp at h
  rcases h with rfl | rfl <;> decide

theorem execChar_inv_s (c : Char) (h : (['x', '-', 's', 'S'].contains c) = true) :
    execChar ((c == 'x') || (c == 's')) ((c == 's') || (c == 'S')) 's' 'S' = c := by
  simp at h
  rcases h with rfl | rfl | rfl | rfl <;> decide

theorem execChar_inv_t (c : Char) (h : (['x', '-', 't', 'T'].contains c) = true) :
    execChar ((c == 'x') || (c == 't')) ((c == 't') || (c == 'T')) 't' 'T' = c := by
  simp at h
  rcases h with rfl | rfl | rfl | rfl <;> decide

theorem mode_str_roundtrip_bits (d : ModeBits) (h : typeFlagCount d = 1) :
    ∃ s, mode_to_str d = some s ∧ str_to_mode s = some d := by
  obtain ⟨t1, t2, t3, t4, t5, t6, ur, uw, ux, su, gr, gw, gx, sg, o1, o2, o3, st⟩ := d
  simp only [typeFlagCount] at h
  cases t1 <;> cases t2 <;> cases t3 <;> cases t4 <;> cases t5 <;> cases t6 <;>
    simp only [Bool.false_eq_true, if_false, Bool.true_eq, if_true,
      Nat.add_zero, Nat.zero_add, reduceIte] at h <;>
    try omega
  all_goals
    (refine ⟨_, rfl, ?_⟩
     rw [str_to_mode, if_pos (by
       simp only [validModeStr, Bool.and_eq_true]
       exact ⟨⟨⟨⟨⟨⟨⟨⟨⟨by decide, contains_rwChar_r ur⟩, contains_rwChar_w uw⟩,
         contains_execChar_s ux su⟩, contains_rwChar_r gr⟩, contains_rwChar_w gw⟩,
         contains_execChar_s gx sg⟩, contains_rwChar_r o1⟩, contains_rwChar_w o2⟩,
         contains_execChar_t o3 st⟩)]
     simp [beq_rwChar_r, beq_rwChar_w, execChar_s_ex, execChar_s_sb,
       execChar_t_ex, execChar_t_sb])

theorem mode_str_roundtrip_str (s : List Char) (h : validModeStr s = true) :
    ∃ d, str_to_mode s = some d ∧ mode_to_str d = some s := by
  rcases s with _ | ⟨c0, s⟩
  · exact Bool.noConfusion h
  rcases s with _ | ⟨c1, s⟩
  · exact Bool.noConfusion h
  rcases s with _ | ⟨c2, s⟩
  · exact Bool.noConfusion h
  rcases s with _ | ⟨c3, s⟩
  · exact Bool.noConfusion h
  rcases s with _ | ⟨c4, s⟩
  · exact Bool.noConfusion h
  rcases s with _ | ⟨c5, s⟩
  · exact Bool.noConfusion h
  rcases s with _ | ⟨c6, s⟩
  · exact Bool.noConfusion h
  rcases s with _ | ⟨c7, s⟩
  · exact Bool.noConfusion h
  rcases s with _ | ⟨c8, s⟩
  · exact Bool.noConfusion h
  rcases s with _ | ⟨c9, s⟩
  · exact Bool.noConfusion h
  rcases s with _ | ⟨c10, s⟩
  case cons.cons.cons.cons.cons.cons.cons.cons.cons.cons.cons =>
    exact Bool.noConfusion h
  have h' : (['-', 'b', 'c', 'd', 'l', 'p'].contains c0 &&
      ['r', '-'].contains c1 && ['w', '-'].contains c2 &&
      ['x', '-', 's', 'S'].contains c3 &&
      ['r', '-'].contains c4 && ['w', '-'].contains c5 &&
      ['x', '-', 's', 'S'].contains c6 &&
      ['r', '-'].contains c7 && ['w', '-'].contains c8 &&
      ['x', '-', 't', 'T'].contains c9) = true := h
  simp only [Bool.and_eq_true] at h'
  obtain ⟨⟨⟨⟨⟨⟨⟨⟨⟨h0, h1⟩, h2⟩, h3⟩, h4⟩, h5⟩, h6⟩, h7⟩, h8⟩, h9⟩ := h'
  refine ⟨_, by rw [str_to_mode, if_pos h], ?_⟩
  have h0' : c0 = '-' ∨ c0 = 'b' ∨ c0 = 'c' ∨ c0 = 'd' ∨ c0 = 'l' ∨ c0 = 'p' := by
    simpa using h0
  rcases h0' with rfl | rfl | rfl | rfl | rfl | rfl <;>
    simp [mode_to_str, typeChar, rwChar_inv_r _ h1, rwChar_inv_w _ h2,
      execChar_inv_s _ h3, rwChar_inv_r _ h4, rwChar_inv_w _ h5,
      execChar_inv_s _ h6, rwChar_inv_r _ h7, rwChar_inv_w _ h8,
      execChar_inv_t _ h9]

/-- C9: `mode_to_str` and `str_to_mode` are mutually inverse — for every
bit-set with exactly one type flag, encoding then parsing returns the same
bit-set, and for every 10-character string matching
`[-bcdlp][r-][w-][x-sS][r-][w-][x-sS][r-][w-][x-tT]`, parsing then encoding
returns the same string. -/
theorem mode_str_bijection :
    (∀ d : ModeBits, typeFlagCount d = 1 →
      ∃ s, mode_to_str d = some s ∧ str_to_mode s = some d) ∧
    (∀ s : List Char, validModeStr s = true →
      ∃ d, str_to_mode s = some d ∧ mode_to_str d = some s) :=
  ⟨mode_str_roundtrip_bits, mode_str_roundtrip_str⟩

/-- A sample bit-set (`drwxr-xr-x`). -/
def sampleModeBits : ModeBits :=
  { is_regular := false, is_block_device := false, is_character_device := false,
    is_directory := true, is_symlink := false, is_fifo := false,
    user_read := true, user_write := true, user_execute := true,
    is_setuid := false, group_read := true, group_write := false,
    group_execute := true, is_setgid := false, other_read := true,
    other_write := false, other_execute := true, is_sticky := false }

theorem mode_str_bijection_witness :
    (∃ s, mode_to_str sampleModeBits = some s ∧ str_to_mode s = some sampleModeBits) ∧
    (∃ d, str_to_mode "-rwS--sr-T".toList = some d ∧
      mode_to_str d = some "-rwS--sr-T".toList) :=
  ⟨mode_str_bijection.1 sampleModeBits (by decide),
    mode_str_bijection.2 "-rwS--sr-T".toList (by decide)⟩

/-! ### Lemmas about the Python string primitives -/

theorem pySplitChar_ne_nil (sep : Char) (l : List Char) :
    pySplitChar sep l ≠ [] := by
  induction l with
  | nil => simp [pySplitChar]
  | cons c rest ih =>
    rw [pySplitChar]
    split
    · simp
    · rcases h : pySplitChar sep rest with _ | ⟨a, b⟩
      · simp
      · simp

theorem pySplitChar_append_sep (sep : Char) (a t : List Char) (h : sep ∉ a) :
    pySplitChar sep (a ++ sep :: t) = a :: pySplitChar sep t := by
  induction a with
  | nil => simp [pySplitChar]
  | cons c a ih =>
    have hc : c ≠ sep := fun hcs => h (by simp [hcs])
    rw [List.cons_append, pySplitChar, if_neg hc,
      ih (fun ha => h (List.mem_cons_of_mem c ha))]

theorem pySplitChar_no_sep (sep : Char) (a : List Char) (h : sep ∉ a) :
    pySplitChar sep a = [a] := by
  induction a with
  | nil => rfl
  | cons c a ih =>
    have hc : c ≠ sep := fun hcs => h (by simp [hcs])
    rw [pySplitChar, if_neg hc, ih (fun ha => h (List.mem_cons_of_mem c ha))]

theorem pyStrip_eq_self (l : List Char)
    (h1 : ∀ c, l.head? = some c → isPySpace c = false)
    (h2 : ∀ c, l.getLast? = some c → isPySpace c = false) :
    pyStrip l = l := by
  have hdrop : ∀ (m : List Char), (∀ c, m.head? = some c → isPySpace c = false) →
      m.dropWhile isPySpace = m := by
    intro m hm
    cases m with
    | nil => rfl
    | cons c t =>
      rw [List.dropWhile_cons, if_neg]
      simp [hm c rfl]
  rw [pyStrip, hdrop l h1, hdrop l.reverse
    (fun c hc => h2 c (by rwa [List.head?_reverse] at hc)), List.reverse_reverse]

theorem pyStrip_concat_space (l : List Char)
    (h1 : ∀ c, l.head? = some c → isPySpace c = false)
    (h2 : ∀ c, l.getLast? = some c → isPySpace c = false) :
    pyStrip (l ++ [' ']) = l := by
  cases l with
  | nil => decide
  | cons a t =>
    have ha : isPySpace a = false := h1 a rfl
    rw [pyStrip, List.cons_append, List.dropWhile_cons, if_neg (by simp [ha])]
    rw [show (a :: (t ++ [' '])).reverse = ' ' :: (a :: t).reverse from by simp]
    rw [List.dropWhile_cons, if_pos (by decide)]
    rcases htr : (a :: t).reverse with _ | ⟨b, tr⟩
    · simp at htr
    · have hb : (a :: t).getLast? = some b := by
        rw [← List.head?_reverse, htr]
        rfl
      have hbns : isPySpace b = false := h2 b hb
      rw [List.dropWhile_cons, if_neg (by simp [hbns]), ← htr,
        List.reverse_reverse]

theorem pySplitWsAux_token (t : List Char) (rest acc : List Char)
    (h : ∀ c ∈ t, isPySpace c = false) :
    pySplitWsAux (t ++ rest) acc = pySplitWsAux rest (t.reverse ++ acc) := by
  induction t generalizing acc with
  | nil => simp
  | cons c t ih =>
    have hc : isPySpace c = false := h c (by simp)
    rw [List.cons_append, pySplitWsAux, if_neg (by simp [hc]),
      ih (c :: acc) (fun x hx => h x (by simp [hx]))]
    simp

theorem pySplitWs_join (ts : List (List Char)) (hne : ts ≠ [])
    (htok : ∀ t ∈ ts, t ≠ [] ∧ ∀ c ∈ t, isPySpace c = false) :
    pySplitWs (pyJoin ' ' ts) = ts := by
  induction ts with
  | nil => exact absurd rfl hne
  | cons t ts ih =>
    obtain ⟨htne, htws⟩ := htok t (by simp)
    cases ts with
    | nil =>
      show pySplitWsAux (pyJoin ' ' [t]) [] = [t]
      rw [show pyJoin ' ' [t] = t ++ [] from by simp [pyJoin]]
      rw [pySplitWsAux_token t [] [] htws]
      rw [pySplitWsAux]
      rw [if_neg (by simpa using htne)]
      simp
    | cons t2 ts2 =>
      show pySplitWsAux (pyJoin ' ' (t :: t2 :: ts2)) [] = t :: t2 :: ts2
      rw [show pyJoin ' ' (t :: t2 :: ts2) = t ++ ' ' :: pyJoin ' ' (t2 :: ts2)
        from rfl]
      rw [pySplitWsAux_token t _ [] htws]
      rw [pySplitWsAux, if_pos (by decide), if_neg (by simpa using htne)]
      rw [List.append_nil, List.reverse_reverse]
      exact congrArg (t :: ·)
        (ih (by simp) (fun x hx => htok x (List.mem_cons_of_mem t hx)))

/-! ### shastity/metadata.py: FileMetaData text codec -/

/-- `FileMetaData` restricted to the fields used by the manifest codec: the
mode bits plus the six numeric fields, all set (the claims quantify over
records with every numeric field present). -/
structure FileMetaData where
  bits : ModeBits
  uid : Int
  gid : Int
  size : Int
  atime : Int
  mtime : Int
  ctime : Int
deriving DecidableEq

/-- `FileMetaData.to_string`: `MODESTR uid gid size atime mtime ctime`.
`none` models the unreachable-assertion error when no type flag is set. -/
def FileMetaData.to_string (md : FileMetaData) : Option (List Char) :=
  (mode_to_str md.bits).map fun ms =>
    pyJoin ' ' [ms, intToChars md.uid, intToChars md.gid, intToChars md.size,
      intToChars md.atime, intToChars md.mtime, intToChars md.ctime]

/-- `FileMetaData.from_string`: split on whitespace, assert 7 components,
parse the mode string and the six integers (assertion and `int()` errors are
modelled as `none`). -/
def FileMetaData.from_string (s : List Char) : Option FileMetaData :=
  match pySplitWs s with
  | [c0, c1, c2, c3, c4, c5, c6] =>
    match str_to_mode c0, parseIntChars c1, parseIntChars c2, parseIntChars c3,
      parseIntChars c4, parseIntChars c5, parseIntChars c6 with
    | some bits, some uid, some gid, some size, some atime, some mtime, some ctime =>
      some ⟨bits, uid, gid, size, atime, mtime, ctime⟩
    | _, _, _, _, _, _, _ => none
  | _ => none

/-! ### shastity/manifest.py -/

/-- One manifest entry: `(path, metadata, hashes)` with `hashes` a list of
`(algorithm, hex)` pairs. -/
structure ManifestEntry where
  path : List Char
  metadata : FileMetaData
  hashes : List (List Char × List Char)
deriving DecidableEq

/-- One line of `write_manifest`:
`'%s | %s | %s' % (metadata.to_string(), spencode(path), ' '.join('%s,%s' pairs))`. -/
def manifestEntryLine (e : ManifestEntry) : Option (List Char) :=
  (e.metadata.to_string).map fun md =>
    md ++ " | ".toList ++ spencode e.path ++ " | ".toList ++
      pyJoin ' ' (e.hashes.map fun ah => ah.1 ++ ',' :: ah.2)

/-- `write_manifest`, at the level of the manifest object's text content (the
final `backend.put(name, text)` and the no-dots name assertion are outside
the round-trip claim). -/
def write_manifest_text (entries : List ManifestEntry) : Option (List Char) :=
  (entries.mapM manifestEntryLine).map fun entryLines =>
    pyJoin '\n'
      ("shastity".toList :: "version 1".toList :: "end".toList :: entryLines)

/-- The errors of `read_manifest` (`ManifestError`, plus the unpacking
`ValueError` and the assertion errors raised while parsing an entry line;
the source also records a line number, which no claim observes). -/
inductive MfError where
  | emptyManifest
  | firstLineNotShastity
  | invalidHeaderLine
  | missingVersion
  | badEntry
deriving DecidableEq

/-- `re.match(r'version (\d+)', head)`: a `version ` prefix followed by at
least one digit (anything after the digits is ignored — `re.match` anchors
only at the start). -/
def parseVersionLine (l : List Char) : Option Nat :=
  if l.take 8 = "version ".toList then
    let ds := (l.drop 8).takeWhile fun c => (digitVal c).isSome
    if ds = [] then none else parseNatChars ds
  else none

/-- The header loop of `read_manifest`: consume lines until `end`, recording
the last `version N` value; any other line is an invalid-header error.  When
no `end` line exists the whole input is consumed and no entries remain. -/
def parseHeader : List (List Char) → Option Nat →
    Except MfError (Option Nat × List (List Char))
  | [], v => .ok (v, [])
  | l :: ls, v =>
    if l = "end".toList then .ok (v, ls)
    else
      match parseVersionLine l with
      | some n => parseHeader ls (some n)
      | none => .error .invalidHeaderLine

/-- `pair.split(',')` destructured into exactly `(algo, hex)`. -/
def parseDigestPair (tok : List Char) : Except MfError (List Char × List Char) :=
  match pySplitChar ',' tok with
  | [a, h] => .ok (a, h)
  | _ => .error .badEntry

/-- The three stripped fields of an entry line: parse metadata, path, and
the whitespace-separated digest pairs (empty third field means no digests). -/
def parseEntryFields (mds pths rest : List Char) : Except MfError ManifestEntry :=
  match FileMetaData.from_string mds, spdecode pths with
  | some md, some path =>
    if rest = [] then .ok ⟨path, md, []⟩
    else ((pySplitWs rest).mapM parseDigestPair).map fun hs => ⟨path, md, hs⟩
  | _, _ => .error .badEntry

/-- One entry line of `read_manifest`: split on `|` into exactly three
stripped fields and parse them. -/
def parseEntryLine (l : List Char) : Except MfError ManifestEntry :=
  match (pySplitChar '|' l).map pyStrip with
  | [mds, pths, rest] => parseEntryFields mds pths rest
  | _ => .error .badEntry

/-- The part of `read_manifest` after the `shastity` magic line: header loop,
required-`version` check, entry parsing. -/
def readHeaderAndBody (lines : List (List Char)) : Except MfError (List ManifestEntry) :=
  match parseHeader lines none with
  | .ok (some _, body) => body.mapM parseEntryLine
  | .ok (none, _) => .error .missingVersion
  | .error e => .error e

/-- `read_manifest`, at the level of the manifest object's text content:
strip all lines, check the `shastity` magic, run the header loop, require a
`version` header, then parse every remaining line as an entry. -/
def read_manifest_text (text : List Char) : Except MfError (List ManifestEntry) :=
  match (pySplitChar '\n' text).map pyStrip with
  | [] => .error .emptyManifest
  | first :: rest =>
    if first = "shastity".toList then readHeaderAndBody rest
    else .error .firstLineNotShastity

/-! ### Claim C10 -/

theorem natToChars_ne_nil (n : Nat) : natToChars n ≠ [] := by
  by_cases hn : n = 0
  · subst hn; decide
  · rw [natToChars, if_neg hn, natDigits_eq]
    intro hcon
    exact Nat.digits_ne_nil_iff_ne_zero.mpr hn
      (by simpa using congrArg List.reverse (by simpa using hcon))

theorem takeWhile_all {p : Char → Bool} (l : List Char) (h : ∀ c ∈ l, p c = true) :
    l.takeWhile p = l := by
  induction l with
  | nil => rfl
  | cons c t ih =>
    rw [List.takeWhile_cons, if_pos (h c (by simp))]
    rw [ih fun x hx => h x (by simp [hx])]

theorem isPySpace_false_of_ge (c : Char) (h : 33 ≤ c.toNat) :
    isPySpace c = false := by
  by_contra hcon
  rw [Bool.not_eq_false] at hcon
  have hmem : c ∈ pySpaceChars := List.mem_of_elem_eq_true hcon
  fin_cases hmem <;> revert h <;> decide

theorem parseVersionLine_digits (n : Nat) :
    parseVersionLine ("version ".toList ++ natToChars n) = some n := by
  rw [parseVersionLine]
  rw [if_pos (by
    rw [show 8 = ("version ".toList).length from rfl, List.take_left])]
  rw [show ("version ".toList ++ natToChars n).drop 8 = natToChars n from by
    rw [show 8 = ("version ".toList).length from rfl, List.drop_left]]
  rw [takeWhile_all (natToChars n) (fun c hc => by
    have := natToChars_all_digits n c hc
    simp only [digitVal, Option.isSome]
    rw [if_pos (by omega)])]
  simp only [if_neg (natToChars_ne_nil n)]
  exact parseNatChars_natToChars n

theorem parseHeader_cons_version (l : List Char) (ls : List (List Char))
    (v : Option Nat) (n : Nat) (hne : l ≠ "end".toList)
    (hv : parseVersionLine l = some n) :
    parseHeader (l :: ls) v = parseHeader ls (some n) := by
  have hne' : l ≠ ['e', 'n', 'd'] := hne
  rw [parseHeader.eq_def]
  simp [hne', hv]

theorem read_manifest_text_of_split (text : List Char) (rest : List (List Char))
    (h : (pySplitChar '\n' text).map pyStrip = "shastity".toList :: rest) :
    read_manifest_text text = readHeaderAndBody rest := by
  rw [read_manifest_text.eq_def, h]
  simp

/-- C10: `read_manifest` accepts `version N` for every decimal `N` and never
checks it against the supported version: the result is identical to parsing
the same manifest declaring `version 1`; and a manifest whose header has no
`version` line at all is rejected with a missing-version parse error. -/
theorem read_manifest_version_unchecked :
    (∀ (n : Nat) (restText : List Char),
      read_manifest_text ("shastity".toList ++ '\n' ::
          (("version ".toList ++ natToChars n) ++ '\n' ::
            ("end".toList ++ '\n' :: restText))) =
        read_manifest_text ("shastity".toList ++ '\n' ::
          ("version 1".toList ++ '\n' :: ("end".toList ++ '\n' :: restText)))) ∧
    (∀ restText : List Char,
      read_manifest_text ("shastity".toList ++ '\n' ::
          ("end".toList ++ '\n' :: restText)) = .error .missingVersion) := by
  have hveq : ∀ (n : Nat) (restText : List Char),
      read_manifest_text ("shastity".toList ++ '\n' ::
          (("version ".toList ++ natToChars n) ++ '\n' ::
            ("end".toList ++ '\n' :: restText))) =
        ((pySplitChar '\n' restText).map pyStrip).mapM parseEntryLine := by
    intro n restText
    have hnl : '\n' ∉ "version ".toList ++ natToChars n := by
      intro hmem
      rcases List.mem_append.mp hmem with hl | hr
      · revert hl; decide
      · have := natToChars_all_digits n '\n' hr
        revert this; decide
    have hsplit : (pySplitChar '\n' ("shastity".toList ++ '\n' ::
        (("version ".toList ++ natToChars n) ++ '\n' ::
          ("end".toList ++ '\n' :: restText)))).map pyStrip =
        "shastity".toList :: ("version ".toList ++ natToChars n) ::
          "end".toList :: (pySplitChar '\n' restText).map pyStrip := by
      rw [pySplitChar_append_sep _ _ _ (by decide),
        pySplitChar_append_sep _ _ _ hnl,
        pySplitChar_append_sep _ _ _ (by decide)]
      simp only [List.map_cons]
      rw [show pyStrip "shastity".toList = "shastity".toList from by decide,
        show pyStrip "end".toList = "end".toList from by decide,
        pyStrip_eq_self _ ?hh ?hl]
      case hh =>
        intro c hc
        obtain rfl : 'v' = c := Option.some.inj hc
        decide
      case hl =>
        intro c hc
        rw [List.getLast?_append_of_ne_nil _ (natToChars_ne_nil n)] at hc
        have hcm : c ∈ natToChars n := List.mem_of_mem_getLast? hc
        have := natToChars_all_digits n c hcm
        exact isPySpace_false_of_ge c (by omega)
    rw [read_manifest_text_of_split _ _ hsplit]
    have hne : ("version ".toList ++ natToChars n) ≠ "end".toList := by
      intro hcon
      have hl := congrArg List.length hcon
      rw [List.length_append] at hl
      have hlen : 1 ≤ (natToChars n).length :=
        List.length_pos_of_ne_nil (natToChars_ne_nil n)
      rw [show ("version ".toList).length = 8 from rfl,
        show ("end".toList).length = 3 from rfl] at hl
      omega
    have hph : parseHeader (("version ".toList ++ natToChars n) ::
        "end".toList :: (pySplitChar '\n' restText).map pyStrip) none =
        .ok (some n, (pySplitChar '\n' restText).map pyStrip) := by
      rw [parseHeader_cons_version _ _ _ n hne (parseVersionLine_digits n)]
      rfl
    simp only [readHeaderAndBody.eq_def, hph]
  constructor
  · intro n restText
    rw [hveq n restText]
    have h1 : "version 1".toList = "version ".toList ++ natToChars 1 := by decide
    rw [h1]
    exact (hveq 1 restText).symm
  · intro restText
    have hsplit : (pySplitChar '\n' ("shastity".toList ++ '\n' ::
        ("end".toList ++ '\n' :: restText))).map pyStrip =
        "shastity".toList :: "end".toList ::
          (pySplitChar '\n' restText).map pyStrip := by
      rw [pySplitChar_append_sep _ _ _ (by decide),
        pySplitChar_append_sep _ _ _ (by decide)]
      simp only [List.map_cons]
      rw [show pyStrip "shastity".toList = "shastity".toList from by decide,
        show pyStrip "end".toList = "end".toList from by decide]
    rw [read_manifest_text_of_split _ _ hsplit]
    rfl

/-! ### Character-class and join/split facts used by the manifest round trip -/

theorem ne_nl_of_not_ws (c : Char) (h : isPySpace c = false) : c ≠ '\n' := by
  intro hc
  subst hc
  revert h
  decide

theorem pyJoin_ne_nil (t : List Char) (ts : List (List Char)) (h : t ≠ []) :
    pyJoin ' ' (t :: ts) ≠ [] := by
  cases ts with
  | nil => simpa [pyJoin] using h
  | cons t2 ts2 =>
    rw [show pyJoin ' ' (t :: t2 :: ts2) = t ++ ' ' :: pyJoin ' ' (t2 :: ts2) from rfl]
    simp

theorem pyJoin_head? (t : List Char) (ts : List (List Char)) (h : t ≠ []) :
    (pyJoin ' ' (t :: ts)).head? = t.head? := by
  cases ts with
  | nil => rfl
  | cons t2 ts2 =>
    rw [show pyJoin ' ' (t :: t2 :: ts2) = t ++ ' ' :: pyJoin ' ' (t2 :: ts2) from rfl,
      List.head?_append_of_ne_nil _ h]

theorem pyJoin_getLast?_mem (ts : List (List Char)) (hne : ∀ t ∈ ts, t ≠ [])
    (c : Char) (hc : (pyJoin ' ' ts).getLast? = some c) : ∃ t ∈ ts, c ∈ t := by
  induction ts with
  | nil => simp [pyJoin] at hc
  | cons t ts ih =>
    cases ts with
    | nil =>
      exact ⟨t, by simp, List.mem_of_mem_getLast? hc⟩
    | cons t2 ts2 =>
      rw [show pyJoin ' ' (t :: t2 :: ts2) = t ++ ' ' :: pyJoin ' ' (t2 :: ts2)
        from rfl] at hc
      rw [List.getLast?_append_of_ne_nil _ (by simp)] at hc
      rcases hjoin : pyJoin ' ' (t2 :: ts2) with _ | ⟨d, ds⟩
      · exact absurd hjoin (pyJoin_ne_nil t2 ts2 (hne t2 (by simp [List.mem_cons])))
      · rw [hjoin, List.getLast?_cons_cons, ← hjoin] at hc
        obtain ⟨t', ht', hct⟩ :=
          ih (fun x hx => hne x (List.mem_cons_of_mem t hx)) hc
        exact ⟨t', List.mem_cons_of_mem t ht', hct⟩

theorem pySplitChar_pyJoin (sep : Char) (ls : List (List Char)) (hne : ls ≠ [])
    (h : ∀ l ∈ ls, sep ∉ l) :
    pySplitChar sep (pyJoin sep ls) = ls := by
  induction ls with
  | nil => exact absurd rfl hne
  | cons t ts ih =>
    cases ts with
    | nil =>
      rw [show pyJoin sep [t] = t from rfl]
      exact pySplitChar_no_sep sep t (h t (by simp))
    | cons t2 ts2 =>
      rw [show pyJoin sep (t :: t2 :: ts2) = t ++ sep :: pyJoin sep (t2 :: ts2)
        from rfl]
      rw [pySplitChar_append_sep sep t _ (h t (by simp))]
      rw [ih (by simp) (fun l hl => h l (List.mem_cons_of_mem t hl))]

theorem pyStrip_cons_space (l : List Char)
    (h1 : ∀ c, l.head? = some c → isPySpace c = false)
    (h2 : ∀ c, l.getLast? = some c → isPySpace c = false) :
    pyStrip (' ' :: l) = l := by
  rw [pyStrip, List.dropWhile_cons, if_pos (by decide)]
  have hdrop : l.dropWhile isPySpace = l := by
    cases l with
    | nil => rfl
    | cons c t => rw [List.dropWhile_cons, if_neg (by simp [h1 c rfl])]
  rw [hdrop]
  have hrev : l.reverse.dropWhile isPySpace = l.reverse := by
    cases hr : l.reverse with
    | nil => rfl
    | cons c t =>
      rw [List.dropWhile_cons, if_neg]
      have : l.getLast? = some c := by rw [← List.head?_reverse, hr]; rfl
      simp [h2 c this]
  rw [hrev, List.reverse_reverse]

theorem rwChar_fact (b : Bool) (ch : Char) (hch : ch = 'r' ∨ ch = 'w') :
    isPySpace (rwChar b ch) = false ∧ rwChar b ch ≠ '|' := by
  rcases hch with rfl | rfl <;> cases b <;> exact ⟨by decide, by decide⟩

theorem execChar_fact (e sb : Bool) (lo hi : Char)
    (hlh : (lo = 's' ∧ hi = 'S') ∨ (lo = 't' ∧ hi = 'T')) :
    isPySpace (execChar e sb lo hi) = false ∧ execChar e sb lo hi ≠ '|' := by
  rcases hlh with ⟨rfl, rfl⟩ | ⟨rfl, rfl⟩ <;> cases e <;> cases sb <;>
    exact ⟨by decide, by decide⟩

theorem typeChar_fact (d : ModeBits) (tc : Char) (h : typeChar d = some tc) :
    isPySpace tc = false ∧ tc ≠ '|' := by
  rw [typeChar] at h
  split_ifs at h <;>
    first
      | (obtain rfl := Option.some.inj h; exact ⟨by decide, by decide⟩)
      | exact Option.noConfusion h

theorem mode_to_str_shape (d : ModeBits) (s : List Char)
    (h : mode_to_str d = some s) :
    ∃ tc, typeChar d = some tc ∧
      s = [tc, rwChar d.user_read 'r', rwChar d.user_write 'w',
        execChar d.user_execute d.is_setuid 's' 'S',
        rwChar d.group_read 'r', rwChar d.group_write 'w',
        execChar d.group_execute d.is_setgid 's' 'S',
        rwChar d.other_read 'r', rwChar d.other_write 'w',
        execChar d.other_execute d.is_sticky 't' 'T'] := by
  rw [mode_to_str] at h
  rcases htc : typeChar d with _ | tc
  · rw [htc] at h; exact Option.noConfusion h
  · rw [htc, Option.map_some'] at h
    exact ⟨tc, rfl, (Option.some.inj h).symm⟩

theorem mode_to_str_chars (d : ModeBits) (s : List Char)
    (h : mode_to_str d = some s) :
    ∀ c ∈ s, isPySpace c = false ∧ c ≠ '|' := by
  obtain ⟨tc, htc, rfl⟩ := mode_to_str_shape d s h
  intro c hc
  simp only [List.mem_cons, List.not_mem_nil, or_false] at hc
  rcases hc with rfl | rfl | rfl | rfl | rfl | rfl | rfl | rfl | rfl | rfl
  · exact typeChar_fact d c htc
  · exact rwChar_fact _ _ (Or.inl rfl)
  · exact rwChar_fact _ _ (Or.inr rfl)
  · exact execChar_fact _ _ _ _ (Or.inl ⟨rfl, rfl⟩)
  · exact rwChar_fact _ _ (Or.inl rfl)
  · exact rwChar_fact _ _ (Or.inr rfl)
  · exact execChar_fact _ _ _ _ (Or.inl ⟨rfl, rfl⟩)
  · exact rwChar_fact _ _ (Or.inl rfl)
  · exact rwChar_fact _ _ (Or.inr rfl)
  · exact execChar_fact _ _ _ _ (Or.inr ⟨rfl, rfl⟩)

theorem mode_to_str_ne_nil (d : ModeBits) (s : List Char)
    (h : mode_to_str d = some s) : s ≠ [] := by
  obtain ⟨tc, _, rfl⟩ := mode_to_str_shape d s h
  simp

theorem intToChars_fact (i : Int) :
    ∀ c ∈ intToChars i, isPySpace c = false ∧ c ≠ '|' := by
  intro c hc
  have hdig : (48 ≤ c.toNat ∧ c.toNat ≤ 57) ∨ c = '-' := by
    rw [intToChars] at hc
    split_ifs at hc
    · rcases List.mem_cons.mp hc with rfl | hmem
      · exact Or.inr rfl
      · exact Or.inl (natToChars_all_digits _ c hmem)
    · exact Or.inl (natToChars_all_digits _ c hc)
  rcases hdig with ⟨h1, h2⟩ | rfl
  · refine ⟨isPySpace_false_of_ge c (by omega), ?_⟩
    intro hcon
    subst hcon
    revert h2
    decide
  · exact ⟨by decide, by decide⟩

theorem intToChars_ne_nil (i : Int) : intToChars i ≠ [] := by
  rw [intToChars]
  split_ifs
  · simp
  · exact natToChars_ne_nil _

theorem spencode_mem_alphabet (p : List Char) :
    ∀ c ∈ spencode p, c ∈ '\'' :: '%' :: hexOutChars ++ safechars := by
  intro c hc
  rw [spencode] at hc
  rcases List.mem_cons.mp hc with rfl | hc2
  · simp
  rcases List.mem_append.mp hc2 with hc3 | hc4
  · rw [urlenc] at hc3
    rw [List.mem_flatMap] at hc3
    obtain ⟨b, hbm, hcb⟩ := hc3
    have hb256 : b < 256 := utf8Encode_lt_256 p b hbm
    rw [urlencByte] at hcb
    split_ifs at hcb with hsafe
    · rcases List.mem_singleton.mp hcb with rfl
      have hsc : ∀ b ∈ safeBytes, Char.ofNat b ∈ safechars := by decide
      exact List.mem_cons_of_mem _ (List.mem_cons_of_mem _
        (List.mem_append_right _ (hsc b hsafe)))
    · have hhex : ∀ d, d < 16 → hexDigitChar d ∈ hexOutChars := by decide
      simp only [List.mem_cons, List.not_mem_nil, or_false] at hcb
      rcases hcb with rfl | rfl | rfl
      · simp
      · exact List.mem_cons_of_mem _ (List.mem_cons_of_mem _
          (List.mem_append_left _ (hhex _ (by omega))))
      · exact List.mem_cons_of_mem _ (List.mem_cons_of_mem _
          (List.mem_append_left _ (hhex _ (by omega))))
  · rcases List.mem_singleton.mp hc4 with rfl
    simp

theorem spencode_fact (p : List Char) :
    ∀ c ∈ spencode p, isPySpace c = false ∧ c ≠ '|' := by
  intro c hc
  have hmem := spencode_mem_alphabet p c hc
  revert hmem
  have : ∀ c ∈ '\'' :: '%' :: hexOutChars ++ safechars,
      isPySpace c = false ∧ c ≠ '|' := by decide
  exact this c

theorem typeChar_mem (d : ModeBits) (tc : Char) (h : typeChar d = some tc) :
    (['-', 'b', 'c', 'd', 'l', 'p'].contains tc) = true := by
  rw [typeChar] at h
  split_ifs at h <;>
    first
      | (obtain rfl := Option.some.inj h; decide)
      | exact Option.noConfusion h

theorem mode_to_str_valid (d : ModeBits) (s : List Char)
    (h : mode_to_str d = some s) : validModeStr s = true := by
  obtain ⟨tc, htc, rfl⟩ := mode_to_str_shape d s h
  have hx : (['-', 'b', 'c', 'd', 'l', 'p'].contains tc &&
      ['r', '-'].contains (rwChar d.user_read 'r') &&
      ['w', '-'].contains (rwChar d.user_write 'w') &&
      ['x', '-', 's', 'S'].contains (execChar d.user_execute d.is_setuid 's' 'S') &&
      ['r', '-'].contains (rwChar d.group_read 'r') &&
      ['w', '-'].contains (rwChar d.group_write 'w') &&
      ['x', '-', 's', 'S'].contains (execChar d.group_execute d.is_setgid 's' 'S') &&
      ['r', '-'].contains (rwChar d.other_read 'r') &&
      ['w', '-'].contains (rwChar d.other_write 'w') &&
      ['x', '-', 't', 'T'].contains (execChar d.other_execute d.is_sticky 't' 'T')) =
      true := by
    simp only [Bool.and_eq_true]
    exact ⟨⟨⟨⟨⟨⟨⟨⟨⟨typeChar_mem d tc htc, contains_rwChar_r _⟩,
      contains_rwChar_w _⟩, contains_execChar_s _ _⟩, contains_rwChar_r _⟩,
      contains_rwChar_w _⟩, contains_execChar_s _ _⟩, contains_rwChar_r _⟩,
      contains_rwChar_w _⟩, contains_execChar_t _ _⟩
  exact hx

theorem mode_to_str_isSome (d : ModeBits) (h : 1 ≤ typeFlagCount d) :
    ∃ s, mode_to_str d = some s := by
  rcases htc : typeChar d with _ | tc
  · exfalso
    rw [typeChar] at htc
    split_ifs at htc with g1 g2 g3 g4 g5 g6 <;> try exact Option.noConfusion htc
    simp only [Bool.not_eq_true] at g1 g2 g3 g4 g5 g6
    rw [typeFlagCount, g1, g2, g3, g4, g5, g6] at h
    simp at h
  · exact ⟨_, by rw [mode_to_str, htc, Option.map_some']⟩

theorem metadata_text_roundtrip (md : FileMetaData) (mdText : List Char)
    (h : md.to_string = some mdText) :
    ∃ md', FileMetaData.from_string mdText = some md' ∧
      md'.to_string = some mdText := by
  obtain ⟨ms, hms⟩ : ∃ ms, mode_to_str md.bits = some ms := by
    rcases hmm : mode_to_str md.bits with _ | ms
    · rw [FileMetaData.to_string, hmm] at h
      exact Option.noConfusion h
    · exact ⟨ms, rfl⟩
  have htext : mdText = pyJoin ' ' [ms, intToChars md.uid, intToChars md.gid,
      intToChars md.size, intToChars md.atime, intToChars md.mtime,
      intToChars md.ctime] := by
    rw [FileMetaData.to_string, hms, Option.map_some'] at h
    exact (Option.some.inj h).symm
  have htoks : ∀ t ∈ [ms, intToChars md.uid, intToChars md.gid,
      intToChars md.size, intToChars md.atime, intToChars md.mtime,
      intToChars md.ctime], t ≠ [] ∧ ∀ c ∈ t, isPySpace c = false := by
    intro t ht
    simp only [List.mem_cons, List.not_mem_nil, or_false] at ht
    rcases ht with rfl | rfl | rfl | rfl | rfl | rfl | rfl
    · exact ⟨mode_to_str_ne_nil md.bits t hms,
        fun c hc => (mode_to_str_chars md.bits t hms c hc).1⟩
    all_goals
      exact ⟨intToChars_ne_nil _, fun c hc => (intToChars_fact _ c hc).1⟩
  have hsplit : pySplitWs mdText = [ms, intToChars md.uid, intToChars md.gid,
      intToChars md.size, intToChars md.atime, intToChars md.mtime,
      intToChars md.ctime] := by
    rw [htext]
    exact pySplitWs_join _ (by simp) htoks
  have hvalid := mode_to_str_valid md.bits ms hms
  obtain ⟨bits', hb1, hb2⟩ := mode_str_roundtrip_str ms hvalid
  refine ⟨⟨bits', md.uid, md.gid, md.size, md.atime, md.mtime, md.ctime⟩, ?_, ?_⟩
  · rw [FileMetaData.from_string.eq_def, hsplit]
    simp only [hb1, parseIntChars_intToChars]
  · show (mode_to_str bits').map _ = some mdText
    rw [hb2, Option.map_some', htext]

/-! ### Claim C5: manifest round trip -/

/-- Well-formedness of one digest component: a token with no whitespace, no
comma and no pipe (true of real `(algorithm, lowercase-hex)` digests). -/
def digestTokenOk (s : List Char) : Prop :=
  ∀ c ∈ s, isPySpace c = false ∧ c ≠ ',' ∧ c ≠ '|'

/-- Well-formedness of an entry as the data model requires: a type flag is
set, and the digest components are plain tokens. -/
def entryOk (e : ManifestEntry) : Prop :=
  1 ≤ typeFlagCount e.metadata.bits ∧
    ∀ ah ∈ e.hashes, digestTokenOk ah.1 ∧ digestTokenOk ah.2

/-- Structural comparison key of the round-trip claim: path, metadata text
form, digest list (the test suite's `to_comparable`). -/
def entryComparable (e : ManifestEntry) :
    List Char × Option (List Char) × List (List Char × List Char) :=
  (e.path, e.metadata.to_string, e.hashes)

theorem pyJoin_mem (ts : List (List Char)) (c : Char) (hc : c ∈ pyJoin ' ' ts) :
    (∃ t ∈ ts, c ∈ t) ∨ c = ' ' := by
  induction ts with
  | nil => simp [pyJoin] at hc
  | cons t ts ih =>
    cases ts with
    | nil => exact Or.inl ⟨t, by simp, by simpa [pyJoin] using hc⟩
    | cons t2 ts2 =>
      rw [show pyJoin ' ' (t :: t2 :: ts2) = t ++ ' ' :: pyJoin ' ' (t2 :: ts2)
        from rfl] at hc
      rcases List.mem_append.mp hc with h1 | h2
      · exact Or.inl ⟨t, by simp, h1⟩
      · rcases List.mem_cons.mp h2 with rfl | h3
        · exact Or.inr rfl
        · rcases ih h3 with ⟨t', ht', hct⟩ | h4
          · exact Or.inl ⟨t', List.mem_cons_of_mem t ht', hct⟩
          · exact Or.inr h4

theorem digestToken_fact (a h : List Char)
    (ha : digestTokenOk a) (hh : digestTokenOk h) :
    ∀ c ∈ a ++ ',' :: h, isPySpace c = false ∧ c ≠ '|' := by
  intro c hc
  rcases List.mem_append.mp hc with h1 | h2
  · exact ⟨(ha c h1).1, (ha c h1).2.2⟩
  · rcases List.mem_cons.mp h2 with rfl | h3
    · exact ⟨by decide, by decide⟩
    · exact ⟨(hh c h3).1, (hh c h3).2.2⟩

theorem pyStrip_space_wrap (l : List Char)
    (h1 : ∀ c, l.head? = some c → isPySpace c = false)
    (h2 : ∀ c, l.getLast? = some c → isPySpace c = false) :
    pyStrip (' ' :: (l ++ [' '])) = l := by
  cases l with
  | nil => decide
  | cons a t =>
    have ha : isPySpace a = false := h1 a rfl
    rw [pyStrip, List.dropWhile_cons, if_pos (by decide), List.cons_append,
      List.dropWhile_cons, if_neg (by simp [ha])]
    rw [show (a :: (t ++ [' '])).reverse = ' ' :: (a :: t).reverse from by simp]
    rw [List.dropWhile_cons, if_pos (by decide)]
    rcases htr : (a :: t).reverse with _ | ⟨b, tr⟩
    · simp at htr
    · have hb : (a :: t).getLast? = some b := by
        rw [← List.head?_reverse, htr]; rfl
      rw [List.dropWhile_cons, if_neg (by simp [h2 b hb]), ← htr,
        List.reverse_reverse]

theorem parseDigestPair_token (a h : List Char) (ha : ',' ∉ a) (hh : ',' ∉ h) :
    parseDigestPair (a ++ ',' :: h) = .ok (a, h) := by
  rw [parseDigestPair.eq_def, pySplitChar_append_sep ',' a _ ha,
    pySplitChar_no_sep ',' h hh]

theorem mapM_parseDigestPair (hs : List (List Char × List Char))
    (h : ∀ ah ∈ hs, digestTokenOk ah.1 ∧ digestTokenOk ah.2) :
    (hs.map fun ah => ah.1 ++ ',' :: ah.2).mapM parseDigestPair = .ok hs := by
  induction hs with
  | nil => rfl
  | cons ah ahs ih =>
    obtain ⟨ha, hh⟩ := h ah (by simp)
    have ha' : ',' ∉ ah.1 := fun hm => (ha ',' hm).2.1 rfl
    have hh' : ',' ∉ ah.2 := fun hm => (hh ',' hm).2.1 rfl
    rw [List.map_cons, List.mapM_cons, parseDigestPair_token _ _ ha' hh',
      ih (fun x hx => h x (List.mem_cons_of_mem ah hx))]
    rfl

theorem to_string_shape (md : FileMetaData) (mdText : List Char)
    (h : md.to_string = some mdText) :
    ∃ ms, mode_to_str md.bits = some ms ∧
      mdText = pyJoin ' ' [ms, intToChars md.uid, intToChars md.gid,
        intToChars md.size, intToChars md.atime, intToChars md.mtime,
        intToChars md.ctime] := by
  rcases hms : mode_to_str md.bits with _ | ms
  · rw [FileMetaData.to_string, hms] at h
    exact Option.noConfusion h
  · rw [FileMetaData.to_string, hms, Option.map_some'] at h
    exact ⟨ms, rfl, (Option.some.inj h).symm⟩

theorem getLast?_cons_ne_nil {α : Type} {a : α} {l : List α} (h : l ≠ []) :
    (a :: l).getLast? = l.getLast? := by
  rcases l with _ | ⟨b, t⟩
  · exact absurd rfl h
  · exact List.getLast?_cons_cons

theorem entry_line_roundtrip (e : ManifestEntry) (hok : entryOk e) :
    ∃ L, manifestEntryLine e = some L ∧ '\n' ∉ L ∧
      ∃ e', parseEntryLine (pyStrip L) = .ok e' ∧
        entryComparable e' = entryComparable e := by
  obtain ⟨hty, hdg⟩ := hok
  obtain ⟨ms0, hms0⟩ := mode_to_str_isSome e.metadata.bits hty
  obtain ⟨mdText, hmd⟩ : ∃ t, e.metadata.to_string = some t :=
    ⟨_, by rw [FileMetaData.to_string, hms0, Option.map_some']⟩
  obtain ⟨ms, hms, htext⟩ := to_string_shape e.metadata mdText hmd
  obtain ⟨md', hfrom, hto⟩ := metadata_text_roundtrip e.metadata mdText hmd
  have hmsne : ms ≠ [] := mode_to_str_ne_nil _ _ hms
  have hmsfact := mode_to_str_chars _ _ hms
  have htoks : ∀ t ∈ [ms, intToChars e.metadata.uid, intToChars e.metadata.gid,
      intToChars e.metadata.size, intToChars e.metadata.atime,
      intToChars e.metadata.mtime, intToChars e.metadata.ctime],
      t ≠ [] ∧ ∀ c ∈ t, isPySpace c = false ∧ c ≠ '|' := by
    intro t ht
    simp only [List.mem_cons, List.not_mem_nil, or_false] at ht
    rcases ht with rfl | rfl | rfl | rfl | rfl | rfl | rfl
    · exact ⟨hmsne, hmsfact⟩
    all_goals exact ⟨intToChars_ne_nil _, intToChars_fact _⟩
  have hmdne : mdText ≠ [] := by
    rw [htext]; exact pyJoin_ne_nil _ _ hmsne
  have hmdhead : ∀ c, mdText.head? = some c → isPySpace c = false := by
    intro c hc
    rw [htext, pyJoin_head? _ _ hmsne] at hc
    exact (hmsfact c (List.mem_of_mem_head? ((Option.mem_def).mpr hc))).1
  have hmdlast : ∀ c, mdText.getLast? = some c → isPySpace c = false := by
    intro c hc
    rw [htext] at hc
    obtain ⟨t, ht, hct⟩ := pyJoin_getLast?_mem _ (fun t ht => (htoks t ht).1) c hc
    exact ((htoks t ht).2 c hct).1
  have hmdmem : ∀ c ∈ mdText, c ≠ '\n' ∧ c ≠ '|' := by
    intro c hc
    rw [htext] at hc
    rcases pyJoin_mem _ c hc with ⟨t, ht, hct⟩ | rfl
    · obtain ⟨hws, hp⟩ := (htoks t ht).2 c hct
      exact ⟨ne_nl_of_not_ws c hws, hp⟩
    · exact ⟨by decide, by decide⟩
  have hspfact := spencode_fact e.path
  have hspne : spencode e.path ≠ [] := by rw [spencode]; simp
  have hsphead : ∀ c, (spencode e.path).head? = some c → isPySpace c = false :=
    fun c hc => (hspfact c (List.mem_of_mem_head? ((Option.mem_def).mpr hc))).1
  have hsplast : ∀ c, (spencode e.path).getLast? = some c → isPySpace c = false :=
    fun c hc => (hspfact c (List.mem_of_mem_getLast? ((Option.mem_def).mpr hc))).1
  have hdtok : ∀ t ∈ e.hashes.map (fun ah => ah.1 ++ ',' :: ah.2),
      t ≠ [] ∧ ∀ c ∈ t, isPySpace c = false ∧ c ≠ '|' := by
    intro t ht
    rw [List.mem_map] at ht
    obtain ⟨ah, hah, rfl⟩ := ht
    obtain ⟨h1, h2⟩ := hdg ah hah
    exact ⟨by simp, digestToken_fact _ _ h1 h2⟩
  have hrestmem : ∀ c ∈ pyJoin ' ' (e.hashes.map fun ah => ah.1 ++ ',' :: ah.2),
      c ≠ '\n' ∧ c ≠ '|' := by
    intro c hc
    rcases pyJoin_mem _ c hc with ⟨t, ht, hct⟩ | rfl
    · obtain ⟨hws, hp⟩ := (hdtok t ht).2 c hct
      exact ⟨ne_nl_of_not_ws c hws, hp⟩
    · exact ⟨by decide, by decide⟩
  refine ⟨mdText ++ " | ".toList ++ spencode e.path ++ " | ".toList ++
      pyJoin ' ' (e.hashes.map fun ah => ah.1 ++ ',' :: ah.2), ?_, ?_, ?_⟩
  · rw [manifestEntryLine, hmd, Option.map_some']
  · intro hmem
    simp only [List.mem_append] at hmem
    rcases hmem with ((((h1 | h2) | h3) | h4) | h5)
    · exact (hmdmem _ h1).1 rfl
    · revert h2; decide
    · exact ne_nl_of_not_ws _ (hspfact _ h3).1 rfl
    · revert h4; decide
    · exact (hrestmem _ h5).1 rfl
  rcases hhs : e.hashes with _ | ⟨ah0, ahs⟩
  · -- no digests: the line ends in "| " and the global strip removes the space
    have hM : mdText ++ " | ".toList ++ spencode e.path ++ " | ".toList ++
        pyJoin ' ' (([] : List (List Char × List Char)).map
          fun ah => ah.1 ++ ',' :: ah.2) =
        ((mdText ++ [' ']) ++ '|' ::
          ((' ' :: (spencode e.path ++ [' '])) ++ '|' :: [])) ++ [' '] := by
      simp [pyJoin]
    rw [hM]
    rw [pyStrip_concat_space _ ?hh ?hl]
    case hh =>
      intro c hc
      rw [List.head?_append_of_ne_nil _ (by simp [hmdne]),
        List.head?_append_of_ne_nil _ hmdne] at hc
      exact hmdhead c hc
    case hl =>
      intro c hc
      rw [show ((mdText ++ [' ']) ++ '|' ::
          ((' ' :: (spencode e.path ++ [' '])) ++ '|' :: [])) =
          ((mdText ++ [' ']) ++ '|' ::
            (' ' :: (spencode e.path ++ [' ']))) ++ ['|'] from by simp,
        List.getLast?_concat] at hc
      obtain rfl : '|' = c := Option.some.inj hc
      decide
    have hsplit : (pySplitChar '|' ((mdText ++ [' ']) ++ '|' ::
        ((' ' :: (spencode e.path ++ [' '])) ++ '|' :: []))).map pyStrip =
        [mdText, spencode e.path, []] := by
      rw [pySplitChar_append_sep '|' _ _ (by
        intro hc
        rcases List.mem_append.mp hc with h1 | h2
        · exact (hmdmem _ h1).2 rfl
        · revert h2; decide)]
      rw [pySplitChar_append_sep '|' _ _ (by
        intro hc
        rcases List.mem_cons.mp hc with heq | h2
        · exact absurd heq.symm (by decide)
        · rcases List.mem_append.mp h2 with h3 | h4
          · exact (hspfact _ h3).2 rfl
          · revert h4; decide)]
      rw [show pySplitChar '|' ([] : List Char) = [[]] from rfl]
      simp only [List.map_cons, List.map_nil]
      rw [pyStrip_concat_space mdText hmdhead hmdlast,
        pyStrip_space_wrap (spencode e.path) hsphead hsplast]
      rfl
    rw [parseEntryLine.eq_def, hsplit]
    show ∃ e', parseEntryFields mdText (spencode e.path) [] = Except.ok e' ∧
      entryComparable e' = entryComparable e
    rw [parseEntryFields.eq_def, hfrom, spdecode_spencode]
    refine ⟨⟨e.path, md', []⟩, rfl, ?_⟩
    simp only [entryComparable]
    rw [hto, hmd, hhs]
  · -- at least one digest: the stripped line is the line itself
    have hrestne : pyJoin ' ' ((ah0 :: ahs).map fun ah => ah.1 ++ ',' :: ah.2) ≠ [] := by
      apply pyJoin_ne_nil
      simp
    have hL2 : mdText ++ " | ".toList ++ spencode e.path ++ " | ".toList ++
        pyJoin ' ' ((ah0 :: ahs).map fun ah => ah.1 ++ ',' :: ah.2) =
        (mdText ++ [' ']) ++ '|' ::
          ((' ' :: (spencode e.path ++ [' '])) ++ '|' ::
            (' ' :: pyJoin ' ' ((ah0 :: ahs).map fun ah => ah.1 ++ ',' :: ah.2))) := by
      simp
    rw [hL2]
    have hrest' := hrestmem
    rw [hhs] at hrest'
    have hrhead : ∀ c, (pyJoin ' ' ((ah0 :: ahs).map
        fun ah => ah.1 ++ ',' :: ah.2)).head? = some c → isPySpace c = false := by
      intro c hc
      rw [List.map_cons, pyJoin_head? _ _ (by simp)] at hc
      exact ((hdtok (ah0.1 ++ ',' :: ah0.2) (by rw [hhs]; simp)).2 c
        (List.mem_of_mem_head? ((Option.mem_def).mpr hc))).1
    have hrlast : ∀ c, (pyJoin ' ' ((ah0 :: ahs).map
        fun ah => ah.1 ++ ',' :: ah.2)).getLast? = some c → isPySpace c = false := by
      intro c hc
      obtain ⟨t, ht, hct⟩ := pyJoin_getLast?_mem _
        (fun t ht => (by
          rw [List.mem_map] at ht
          obtain ⟨ah, _, rfl⟩ := ht
          simp : t ≠ [])) c hc
      have ht' : t ∈ e.hashes.map (fun ah => ah.1 ++ ',' :: ah.2) := by
        rw [hhs]; exact ht
      exact ((hdtok t ht').2 c hct).1
    rw [pyStrip_eq_self _ ?hh2 ?hl2]
    case hh2 =>
      intro c hc
      rw [List.head?_append_of_ne_nil _ (by simp [hmdne]),
        List.head?_append_of_ne_nil _ hmdne] at hc
      exact hmdhead c hc
    case hl2 =>
      intro c hc
      rw [List.getLast?_append_of_ne_nil _ (by simp),
        getLast?_cons_ne_nil (by simp),
        List.getLast?_append_of_ne_nil _ (by simp),
        getLast?_cons_ne_nil (by simp [hrestne]),
        getLast?_cons_ne_nil hrestne] at hc
      exact hrlast c hc
    have hsplit : (pySplitChar '|' ((mdText ++ [' ']) ++ '|' ::
        ((' ' :: (spencode e.path ++ [' '])) ++ '|' ::
          (' ' :: pyJoin ' ' ((ah0 :: ahs).map
            fun ah => ah.1 ++ ',' :: ah.2))))).map pyStrip =
        [mdText, spencode e.path,
          pyJoin ' ' ((ah0 :: ahs).map fun ah => ah.1 ++ ',' :: ah.2)] := by
      rw [pySplitChar_append_sep '|' _ _ (by
        intro hc
        rcases List.mem_append.mp hc with h1 | h2
        · exact (hmdmem _ h1).2 rfl
        · revert h2; decide)]
      rw [pySplitChar_append_sep '|' _ _ (by
        intro hc
        rcases List.mem_cons.mp hc with heq | h2
        · exact absurd heq.symm (by decide)
        · rcases List.mem_append.mp h2 with h3 | h4
          · exact (hspfact _ h3).2 rfl
          · revert h4; decide)]
      rw [pySplitChar_no_sep '|' _ (by
        intro hc
        rcases List.mem_cons.mp hc with heq | h2
        · exact absurd heq.symm (by decide)
        · exact (hrest' _ h2).2 rfl)]
      have hmapstrip : ∀ a b c : List Char,
          List.map pyStrip [a, b, c] = [pyStrip a, pyStrip b, pyStrip c] :=
        fun _ _ _ => rfl
      rw [hmapstrip, pyStrip_concat_space mdText hmdhead hmdlast,
        pyStrip_space_wrap (spencode e.path) hsphead hsplast,
        pyStrip_cons_space _ hrhead hrlast]
    rw [parseEntryLine.eq_def, hsplit]
    show ∃ e', parseEntryFields mdText (spencode e.path)
      (pyJoin ' ' ((ah0 :: ahs).map fun ah => ah.1 ++ ',' :: ah.2)) =
        Except.ok e' ∧ entryComparable e' = entryComparable e
    have hws : pySplitWs (pyJoin ' ' ((ah0 :: ahs).map
        fun ah => ah.1 ++ ',' :: ah.2)) =
        (ah0 :: ahs).map fun ah => ah.1 ++ ',' :: ah.2 := by
      apply pySplitWs_join _ (by simp)
      intro t ht
      have ht' : t ∈ e.hashes.map (fun ah => ah.1 ++ ',' :: ah.2) := by
        rw [hhs]; exact ht
      exact ⟨(hdtok t ht').1, fun c hc => ((hdtok t ht').2 c hc).1⟩
    have hdg' : ∀ ah ∈ ah0 :: ahs, digestTokenOk ah.1 ∧ digestTokenOk ah.2 := by
      rw [← hhs]; exact hdg
    rw [parseEntryFields.eq_def, hfrom, spdecode_spencode]
    show ∃ e', (if pyJoin ' ' ((ah0 :: ahs).map fun ah => ah.1 ++ ',' :: ah.2) = []
        then Except.ok (⟨e.path, md', []⟩ : ManifestEntry)
        else ((pySplitWs (pyJoin ' '
            ((ah0 :: ahs).map fun ah => ah.1 ++ ',' :: ah.2))).mapM
          parseDigestPair).map fun hs => (⟨e.path, md', hs⟩ : ManifestEntry)) =
        Except.ok e' ∧ entryComparable e' = entryComparable e
    rw [if_neg hrestne, hws, mapM_parseDigestPair _ hdg']
    refine ⟨⟨e.path, md', ah0 :: ahs⟩, rfl, ?_⟩
    simp only [entryComparable]
    rw [hto, hmd, hhs]

instance (s : List Char) : Decidable (digestTokenOk s) :=
  inferInstanceAs (Decidable (∀ c ∈ s, isPySpace c = false ∧ c ≠ ',' ∧ c ≠ '|'))

instance (e : ManifestEntry) : Decidable (entryOk e) :=
  inferInstanceAs (Decidable (1 ≤ typeFlagCount e.metadata.bits ∧
    ∀ ah ∈ e.hashes, digestTokenOk ah.1 ∧ digestTokenOk ah.2))

theorem manifest_lines_roundtrip (entries : List ManifestEntry)
    (hok : ∀ e ∈ entries, entryOk e) :
    ∃ Ls, entries.mapM manifestEntryLine = some Ls ∧
      (∀ L ∈ Ls, '\n' ∉ L) ∧
      ∃ es', (Ls.map pyStrip).mapM parseEntryLine = Except.ok es' ∧
        es'.map entryComparable = entries.map entryComparable := by
  induction entries with
  | nil => exact ⟨[], rfl, by simp, [], rfl, rfl⟩
  | cons e es ih =>
    obtain ⟨L, hL, hnl, e', hpe, hcmp⟩ := entry_line_roundtrip e (hok e (by simp))
    obtain ⟨Ls, hLs, hnls, es', hpes, hcmps⟩ :=
      ih fun x hx => hok x (List.mem_cons_of_mem e hx)
    refine ⟨L :: Ls, ?_, ?_, e' :: es', ?_, ?_⟩
    · rw [List.mapM_cons, hL, hLs]; rfl
    · intro l hl
      rcases List.mem_cons.mp hl with rfl | h
      · exact hnl
      · exact hnls l h
    · rw [List.map_cons, List.mapM_cons, hpe, hpes]; rfl
    · rw [List.map_cons, List.map_cons, hcmp, hcmps]

theorem parseHeader_end (ls : List (List Char)) (v : Option Nat) :
    parseHeader ("end".toList :: ls) v = .ok (v, ls) := by
  rw [parseHeader.eq_def]
  simp

/-- C5: for every sequence of well-formed manifest entries (a type flag set
in the metadata, digest components free of whitespace and separators),
`write_manifest` produces a text which `read_manifest` parses back into a
structurally equal sequence — equal paths, equal metadata text form, equal
digest lists — in exactly the same order, including entries whose digest
list is empty. -/
theorem write_read_manifest_roundtrip (entries : List ManifestEntry)
    (hok : ∀ e ∈ entries, entryOk e) :
    ∃ text es', write_manifest_text entries = some text ∧
      read_manifest_text text = Except.ok es' ∧
      es'.map entryComparable = entries.map entryComparable := by
  obtain ⟨Ls, hLs, hnl, es', hpes, hcmp⟩ := manifest_lines_roundtrip entries hok
  refine ⟨pyJoin '\n' ("shastity".toList :: "version 1".toList ::
    "end".toList :: Ls), es', ?_, ?_, hcmp⟩
  · rw [write_manifest_text, hLs, Option.map_some']
  · have hsplitnl : pySplitChar '\n' (pyJoin '\n' ("shastity".toList ::
        "version 1".toList :: "end".toList :: Ls)) =
        "shastity".toList :: "version 1".toList :: "end".toList :: Ls := by
      apply pySplitChar_pyJoin _ _ (by simp)
      intro l hl
      rcases List.mem_cons.mp hl with rfl | hl
      · decide
      rcases List.mem_cons.mp hl with rfl | hl
      · decide
      rcases List.mem_cons.mp hl with rfl | hl
      · decide
      exact hnl l hl
    have hmap : (pySplitChar '\n' (pyJoin '\n' ("shastity".toList ::
        "version 1".toList :: "end".toList :: Ls))).map pyStrip =
        "shastity".toList :: "version 1".toList :: "end".toList ::
          Ls.map pyStrip := by
      rw [hsplitnl, List.map_cons, List.map_cons, List.map_cons]
      rw [show pyStrip "shastity".toList = "shastity".toList from by decide,
        show pyStrip "version 1".toList = "version 1".toList from by decide,
        show pyStrip "end".toList = "end".toList from by decide]
    rw [read_manifest_text_of_split _ _ hmap]
    rw [readHeaderAndBody.eq_def]
    rw [parseHeader_cons_version _ _ _ 1 (by decide) (by decide)]
    rw [parseHeader_end]
    exact hpes

def sampleMeta1 : FileMetaData :=
  { bits := sampleModeBits, uid := 1000, gid := 100, size := 4096,
    atime := 1234567890, mtime := -5, ctime := 0 }

def sampleMeta2 : FileMetaData :=
  { bits := sampleModeBits, uid := 0, gid := 0, size := 0,
    atime := 0, mtime := 0, ctime := 0 }

def sampleManifestEntries : List ManifestEntry :=
  [{ path := "a dir/file one.txt".toList, metadata := sampleMeta1,
     hashes := [("sha512".toList, "abc123".toList),
       ("md5".toList, "ff00".toList)] },
   { path := [], metadata := sampleMeta2, hashes := [] }]

/-- C5 witness: the round trip at a concrete two-entry manifest — one entry
with a space in its path and two digests, one with an empty path and an
empty digest list. -/
theorem write_read_manifest_roundtrip_witness :
    (∀ e ∈ sampleManifestEntries, entryOk e) ∧
    ∃ text es', write_manifest_text sampleManifestEntries = some text ∧
      read_manifest_text text = Except.ok es' ∧
      es'.map entryComparable = sampleManifestEntries.map entryComparable :=
  ⟨by decide, write_read_manifest_roundtrip sampleManifestEntries (by decide)⟩

/-! ### Claim C1: traversal and persistence -/

/-- A file-system tree node as `traversal.py` observes it: `fs.lstat` gives
the metadata, `fs.listdir` the child names.  (File contents are read through
a separate read function, mirroring `fs.open` in `persistence.py`.) -/
inductive FSNode where
  | mk (meta : FileMetaData) (children : List (List Char × FSNode))

def FSNode.meta : FSNode → FileMetaData
  | .mk m _ => m

def FSNode.children : FSNode → List (List Char × FSNode)
  | .mk _ ch => ch

/-- Python string `<`: lexicographic by code point. -/
def strLt : List Char → List Char → Bool
  | [], [] => false
  | [], _ :: _ => true
  | _ :: _, [] => false
  | c :: cs, d :: ds =>
    if c.toNat < d.toNat then true
    else if d.toNat < c.toNat then false
    else strLt cs ds

/-- Stable insertion used by `files.sort()` on the child names. -/
def insertByName (x : List Char × FSNode) :
    List (List Char × FSNode) → List (List Char × FSNode)
  | [] => [x]
  | y :: ys => if strLt y.1 x.1 then y :: insertByName x ys else x :: y :: ys

def sortChildren : List (List Char × FSNode) → List (List Char × FSNode)
  | [] => []
  | x :: xs => insertByName x (sortChildren xs)

/-- `os.path.join(a, b)` for the cases arising here: an absolute `b` wins;
otherwise a `/` is inserted unless `a` is empty or already ends in `/`. -/
def osPathJoin (a b : List Char) : List Char :=
  if b.head? = some '/' then b
  else if a = [] then a ++ b
  else if a.getLast? = some '/' then a ++ b
  else a ++ '/' :: b

/-- Python `path.startswith(pre)`. -/
def startswith : List Char → List Char → Bool
  | _, [] => true
  | [], _ :: _ => false
  | c :: cs, d :: ds => c = d && startswith cs ds

namespace Traversal

/-- `NotADirectory` raised by `traverse` on a non-directory root. -/
inductive TravError where
  | notADirectory
deriving DecidableEq

/-- `_traverse_dir`: for each child in sorted name order, yield
`(joined-path, lstat)` and recurse into directories that are not symlinks.
The generator recursion is driven by an explicit depth `fuel` (the real file
system is finite); every claim below holds for every fuel. -/
def traverseEntries (fuel : Nat) (path : List Char)
    (entries : List (List Char × FSNode)) : List (List Char × FileMetaData) :=
  match fuel with
  | 0 => []
  | f + 1 =>
    match entries with
    | [] => []
    | (name, child) :: rest =>
      let fpath := osPathJoin path name
      (fpath, child.meta) ::
        ((if child.meta.bits.is_directory && !child.meta.bits.is_symlink
          then traverseEntries f fpath (sortChildren child.children)
          else []) ++ traverseEntries f path rest)

/-- `traverse`: reject a symlink or non-directory root, yield the root
itself as `(path, lstat(path))` first, then the recursive directory walk. -/
def traverse (fuel : Nat) (root : FSNode) (path : List Char) :
    Except TravError (List (List Char × FileMetaData)) :=
  if root.meta.bits.is_symlink || !root.meta.bits.is_directory then
    .error .notADirectory
  else
    .ok ((path, root.meta) ::
      traverseEntries fuel path (sortChildren root.children))

end Traversal

namespace Persistence

/-- The exceptions a persistence run can raise (`assert` failures). -/
inductive PersistError where
  | assertionError
deriving DecidableEq

/-- `_next_block` looped until EOF: the contents chunked into
`blocksize`-byte blocks.  A `blocksize` of zero makes the read loop return
an empty string immediately, so no blocks are produced at all. -/
def chunksAux (blocksize : Nat) : Nat → List Nat → List (List Nat)
  | 0, _ => []
  | _, [] => []
  | fuel + 1, content =>
    content.take blocksize :: chunksAux blocksize fuel (content.drop blocksize)

def chunks (blocksize : Nat) (content : List Nat) : List (List Nat) :=
  if blocksize = 0 then [] else chunksAux blocksize content.length content

/-- The block loop of `_persist_file`: hash each block, record the digest,
and for digests not yet in `skip_blocks` enqueue a PUT and add the digest to
`skip_blocks`.  Returns (digest list, final skip list, enqueued PUTs). -/
def processBlocks (hasher : List Nat → List Char × List Char) :
    List (List Nat) → List (List Char × List Char) →
    List (List Char × List Char) × List (List Char × List Char) ×
      List (List Char × List Nat)
  | [], skip => ([], skip, [])
  | b :: bs, skip =>
    let ah := hasher b
    if ah ∈ skip then
      let r := processBlocks hasher bs skip
      (ah :: r.1, r.2.1, r.2.2)
    else
      let r := processBlocks hasher bs (skip ++ [ah])
      (ah :: r.1, r.2.1, (ah.2, b) :: r.2.2)

/-- `_persist_file`: the three asserts, prefix stripping, then the
symlink/directory/regular split.  Returns the manifest entry, the updated
`skip_blocks` list and the PUT operations enqueued on the storage queue. -/
def _persist_file (path basepath : List Char) (meta : FileMetaData)
    (content : List Nat) (blocksize : Nat)
    (hasher : List Nat → List Char × List Char)
    (skip : List (List Char × List Char)) :
    Except PersistError
      ((List Char × FileMetaData × List (List Char × List Char)) ×
        List (List Char × List Char) × List (List Char × List Nat)) :=
  if basepath.length = 0 then .error .assertionError
  else
    let bp := if basepath.getLast? = some '/' then basepath
      else basepath ++ ['/']
    if startswith path bp = false then .error .assertionError
    else if path.length ≤ bp.length then .error .assertionError
    else
      let stripped := path.drop bp.length
      if meta.bits.is_symlink then .ok ((stripped, meta, []), skip, [])
      else if meta.bits.is_directory then .ok ((stripped, meta, []), skip, [])
      else
        let r := processBlocks hasher (chunks blocksize content) skip
        .ok ((stripped, meta, r.1), r.2.1, r.2.2)

/-- `persist` with `incremental = None`: map `_persist_file` over the
traversal entries, threading the `skip_blocks` list; the first raised
assertion aborts the generator. -/
def persist (entries : List (List Char × FileMetaData))
    (basepath : List Char) (readFile : List Char → List Nat)
    (blocksize : Nat) (hasher : List Nat → List Char × List Char)
    (skip : List (List Char × List Char)) :
    Except PersistError
      (List (List Char × FileMetaData × List (List Char × List Char))) :=
  match entries with
  | [] => .ok []
  | (path, meta) :: rest =>
    match _persist_file path basepath meta (readFile path) blocksize
        hasher skip with
    | .error e => .error e
    | .ok (entry, skip2, _) =>
      (persist rest basepath readFile blocksize hasher skip2).map
        fun es => entry :: es

end Persistence

theorem startswith_self_append (s t : List Char) (h : t ≠ []) :
    startswith s (s ++ t) = false := by
  induction s with
  | nil =>
    cases t with
    | nil => exact absurd rfl h
    | cons c cs => rfl
  | cons c cs ih =>
    rw [List.cons_append, startswith]
    simp [ih]

/-- C1: the root entry yielded first by `traverse` has the base path itself
as its path, and `_persist_file` asserts that the path is strictly longer
than the slash-terminated base path; so `persist` over a traversal raises
`AssertionError` at the very first entry and never yields any manifest
entry — in particular an empty directory does not produce the single
`('', dir-metadata, [])` entry the claim describes. -/
theorem persist_traverse_root_assertion (root : FSNode) (p : List Char)
    (fuel : Nat) (readFile : List Char → List Nat) (blocksize : Nat)
    (hasher : List Nat → List Char × List Char)
    (skip : List (List Char × List Char))
    (hdir : root.meta.bits.is_directory = true)
    (hnl : root.meta.bits.is_symlink = false) :
    ∃ entries, Traversal.traverse fuel root p = .ok entries ∧
      entries.head? = some (p, root.meta) ∧
      Persistence.persist entries p readFile blocksize hasher skip =
        .error .assertionError ∧
      ∀ result, Persistence.persist entries p readFile blocksize hasher skip ≠
        .ok result := by
  have hpf : Persistence._persist_file p p root.meta (readFile p) blocksize
      hasher skip = .error .assertionError := by
    rw [Persistence._persist_file]
    by_cases hp0 : p.length = 0
    · rw [if_pos hp0]
    · rw [if_neg hp0]
      by_cases hsl : p.getLast? = some '/'
      · rw [if_pos hsl]
        by_cases hsw : startswith p p = false
        · simp [hsw]
        · simp [hsw]
      · rw [if_neg hsl]
        simp [startswith_self_append p ['/'] (by simp)]
  refine ⟨(p, root.meta) ::
    Traversal.traverseEntries fuel p (sortChildren root.children), ?_, rfl,
    ?_, ?_⟩
  · rw [Traversal.traverse, hdir, hnl]
    rfl
  · rw [Persistence.persist, hpf]
  · intro result hcon
    rw [Persistence.persist, hpf] at hcon
    exact Except.noConfusion hcon

def emptyDirNode : FSNode := .mk sampleMeta2 []

/-- C1 witness: persisting the traversal of a concrete empty directory `D`
raises the assertion instead of yielding the root entry. -/
theorem persist_traverse_root_assertion_witness :
    emptyDirNode.meta.bits.is_directory = true ∧
    emptyDirNode.meta.bits.is_symlink = false ∧
    ∃ entries,
      Traversal.traverse 1 emptyDirNode "D".toList = .ok entries ∧
      entries.head? = some ("D".toList, emptyDirNode.meta) ∧
      Persistence.persist entries "D".toList (fun _ => []) 1024
        (fun _ => ([], [])) [] = .error .assertionError ∧
      ∀ result, Persistence.persist entries "D".toList (fun _ => []) 1024
        (fun _ => ([], [])) [] ≠ .ok result :=
  ⟨rfl, rfl, persist_traverse_root_assertion emptyDirNode "D".toList 1
    (fun _ => []) 1024 (fun _ => ([], [])) [] rfl rfl⟩

/-! ### Claim C2: materialize's GET callbacks -/

namespace Materialization

/-- The mutable bindings of `materialize`'s loop body that the GET callbacks
close over: the comprehension variable `block_num` and the per-file `m13n`
object (identified here by the file name it was created for).  In Python 2
both are plain function-scope variables, rebound as the loops advance, and
`lambda bstr: m13n.write_block(bstr, block_num)` captures the variables,
not their values at creation time. -/
structure LoopEnv where
  block_num : Option Nat
  m13n : Option (List Char)
deriving DecidableEq

/-- The one lambda shape occurring in the comprehension. -/
inductive Callback where
  | writeBlockLambda
deriving DecidableEq

structure GetOp where
  name : List Char
  callback : Callback
deriving DecidableEq

/-- Invoking a callback, as a function of the environment at invocation
time: it calls `write_block(bstr, block_num)` on the object currently bound
to `m13n`, with the current value of `block_num`. -/
def invokeCallback (env : LoopEnv) (cb : Callback) (bstr : List Nat) :
    Option (List Char × List Nat × Nat) :=
  match cb with
  | .writeBlockLambda =>
    match env.m13n, env.block_num with
    | some f, some n => some (f, bstr, n)
    | _, _ => none

/-- The comprehension `[GetOperation(name=blockname, callback=lambda bstr:
m13n.write_block(bstr, block_num)) for block_num, blockname in
enumerate(blocknames)]`: each iteration rebinds `block_num` in the
enclosing scope and appends an op holding the shared lambda. -/
def buildOpsAux (env : LoopEnv) : Nat → List (List Char) →
    List GetOp × LoopEnv
  | _, [] => ([], env)
  | i, bn :: rest =>
    let r := buildOpsAux { env with block_num := some i } (i + 1) rest
    (⟨bn, .writeBlockLambda⟩ :: r.1, r.2)

def buildOps (env : LoopEnv) (blocknames : List (List Char)) :
    List GetOp × LoopEnv :=
  buildOpsAux env 0 blocknames

/-- One regular-file iteration of the materialize loop: rebind `m13n` to
this file's freshly created FileMaterialization, then build and enqueue the
GET list (`blocknames = [algohash[1] for algohash in hashes]`).  Returns
the enqueued ops and the environment as the loop leaves it. -/
def materializeFile (env : LoopEnv) (localPath : List Char)
    (hashes : List (List Char × List Char)) : List GetOp × LoopEnv :=
  buildOps { env with m13n := some localPath } (hashes.map fun ah => ah.2)

end Materialization

theorem buildOpsAux_ops (env : Materialization.LoopEnv) (i : Nat)
    (bns : List (List Char)) :
    (Materialization.buildOpsAux env i bns).1.map
        Materialization.GetOp.name = bns ∧
    ∀ op ∈ (Materialization.buildOpsAux env i bns).1,
      op.callback = .writeBlockLambda := by
  induction bns generalizing env i with
  | nil =>
    exact ⟨rfl, fun op hop => by
      simp [Materialization.buildOpsAux] at hop⟩
  | cons bn rest ih =>
    obtain ⟨h1, h2⟩ := ih { env with block_num := some i } (i + 1)
    constructor
    · show ((⟨bn, .writeBlockLambda⟩ : Materialization.GetOp) ::
          (Materialization.buildOpsAux { env with block_num := some i }
            (i + 1) rest).1).map Materialization.GetOp.name = bn :: rest
      rw [List.map_cons, h1]
    · intro op hop
      have hop' : op = (⟨bn, .writeBlockLambda⟩ : Materialization.GetOp) ∨
          op ∈ (Materialization.buildOpsAux { env with block_num := some i }
            (i + 1) rest).1 := List.mem_cons.mp hop
      rcases hop' with rfl | h
      · rfl
      · exact h2 op h

theorem buildOpsAux_env (env : Materialization.LoopEnv) (i : Nat)
    (bn : List Char) (bns : List (List Char)) :
    (Materialization.buildOpsAux env i (bn :: bns)).2 =
      { env with block_num := some (i + bns.length) } := by
  induction bns generalizing env i bn with
  | nil => rfl
  | cons b bs ih =>
    have hstep : (Materialization.buildOpsAux env i (bn :: b :: bs)).2 =
        (Materialization.buildOpsAux { env with block_num := some i }
          (i + 1) (b :: bs)).2 := rfl
    rw [hstep, ih { env with block_num := some i } (i + 1) b]
    show ({ block_num := some (i + 1 + bs.length), m13n := env.m13n } :
        Materialization.LoopEnv) =
      { block_num := some (i + (b :: bs).length), m13n := env.m13n }
    rw [show i + 1 + bs.length = i + (b :: bs).length from by
      rw [List.length_cons]; omega]

/-- C2: the comprehension building a file's GET operations does enqueue one
operation per digest, with the right block names, but every operation holds
the same late-binding lambda: invoked after the comprehension has finished,
each callback calls `write_block` with the final value `len(d) - 1` of
`block_num` — not its own index — and on whatever object `m13n` currently
names, so after a later file rebinds `m13n` the write even goes to the
other file's assembly object. -/
theorem materialize_callback_late_binding (env0 : Materialization.LoopEnv)
    (localPath : List Char) (hashes : List (List Char × List Char))
    (h2 : 2 ≤ hashes.length) (bstr : List Nat) :
    ((Materialization.materializeFile env0 localPath hashes).1.map
        Materialization.GetOp.name = hashes.map fun ah => ah.2) ∧
    (Materialization.materializeFile env0 localPath hashes).1.length =
      hashes.length ∧
    (Materialization.materializeFile env0 localPath hashes).2 =
      { block_num := some (hashes.length - 1), m13n := some localPath } ∧
    (∀ op ∈ (Materialization.materializeFile env0 localPath hashes).1,
      Materialization.invokeCallback
          (Materialization.materializeFile env0 localPath hashes).2
          op.callback bstr =
        some (localPath, bstr, hashes.length - 1)) ∧
    (∀ op ∈ (Materialization.materializeFile env0 localPath hashes).1,
      Materialization.invokeCallback
          (Materialization.materializeFile env0 localPath hashes).2
          op.callback bstr ≠
        some (localPath, bstr, 0)) ∧
    ∀ p2 hs2, hs2 ≠ ([] : List (List Char × List Char)) →
      ∀ op ∈ (Materialization.materializeFile env0 localPath hashes).1,
        Materialization.invokeCallback
            (Materialization.materializeFile
              (Materialization.materializeFile env0 localPath hashes).2
              p2 hs2).2 op.callback bstr =
          some (p2, bstr, hs2.length - 1) := by
  rcases hsh : hashes with _ | ⟨ah0, ahs⟩
  · rw [hsh] at h2; exact absurd h2 (by decide)
  obtain ⟨hnames, hcbs⟩ := buildOpsAux_ops
    { env0 with m13n := some localPath } 0 ((ah0 :: ahs).map fun ah => ah.2)
  have henv : (Materialization.materializeFile env0 localPath
      (ah0 :: ahs)).2 =
      { block_num := some ((ah0 :: ahs).length - 1),
        m13n := some localPath } := by
    rw [Materialization.materializeFile, Materialization.buildOps,
      List.map_cons, buildOpsAux_env]
    rw [show (0 + (ahs.map fun ah => ah.2).length) = (ah0 :: ahs).length - 1
      from by simp]
  refine ⟨hnames, ?_, henv, ?_, ?_, ?_⟩
  · have hlen := congrArg List.length hnames
    rw [List.length_map, List.length_map] at hlen
    have hlen2 : (ah0 :: ahs).length =
        ((ah0 :: ahs).map fun ah => ah.2).length := (List.length_map _ _).symm
    rw [List.length_map] at hlen2
    exact hlen
  · intro op hop
    rw [hcbs op hop, henv, Materialization.invokeCallback]
  · intro op hop
    rw [hcbs op hop, henv, Materialization.invokeCallback]
    rw [hsh] at h2
    simp only [List.length_cons] at h2 ⊢
    intro hcon
    have h4 := (Prod.mk.inj (Prod.mk.inj (Option.some.inj hcon)).2).2
    omega
  · intro p2 hs2 hne op hop
    rcases hs2 with _ | ⟨bh0, bhs⟩
    · exact absurd rfl hne
    have henv2 : (Materialization.materializeFile
        (Materialization.materializeFile env0 localPath (ah0 :: ahs)).2
        p2 (bh0 :: bhs)).2 =
        { block_num := some ((bh0 :: bhs).length - 1), m13n := some p2 } := by
      rw [Materialization.materializeFile, Materialization.buildOps,
        List.map_cons, buildOpsAux_env]
      rw [show (0 + (bhs.map fun ah => ah.2).length) =
        (bh0 :: bhs).length - 1 from by simp]
    rw [hcbs op hop, henv2, Materialization.invokeCallback]

def sampleEnvC2 : Materialization.LoopEnv := ⟨none, none⟩

def sampleHashesC2 : List (List Char × List Char) :=
  [("a".toList, "01".toList), ("a".toList, "02".toList)]

/-- C2 witness: a concrete two-block file whose two GET callbacks both
write block 1, and write into a later file's assembly object once `m13n`
has been rebound. -/
theorem materialize_callback_late_binding_witness :
    2 ≤ sampleHashesC2.length ∧
    (((Materialization.materializeFile sampleEnvC2 "f1".toList
        sampleHashesC2).1.map Materialization.GetOp.name =
      sampleHashesC2.map fun ah => ah.2) ∧
    (Materialization.materializeFile sampleEnvC2 "f1".toList
        sampleHashesC2).1.length = sampleHashesC2.length ∧
    (Materialization.materializeFile sampleEnvC2 "f1".toList
        sampleHashesC2).2 =
      { block_num := some (sampleHashesC2.length - 1),
        m13n := some "f1".toList } ∧
    (∀ op ∈ (Materialization.materializeFile sampleEnvC2 "f1".toList
        sampleHashesC2).1,
      Materialization.invokeCallback
          (Materialization.materializeFile sampleEnvC2 "f1".toList
            sampleHashesC2).2 op.callback [7] =
        some ("f1".toList, [7], sampleHashesC2.length - 1)) ∧
    (∀ op ∈ (Materialization.materializeFile sampleEnvC2 "f1".toList
        sampleHashesC2).1,
      Materialization.invokeCallback
          (Materialization.materializeFile sampleEnvC2 "f1".toList
            sampleHashesC2).2 op.callback [7] ≠
        some ("f1".toList, [7], 0)) ∧
    ∀ p2 hs2, hs2 ≠ ([] : List (List Char × List Char)) →
      ∀ op ∈ (Materialization.materializeFile sampleEnvC2 "f1".toList
          sampleHashesC2).1,
        Materialization.invokeCallback
            (Materialization.materializeFile
              (Materialization.materializeFile sampleEnvC2 "f1".toList
                sampleHashesC2).2 p2 hs2).2 op.callback [7] =
          some (p2, [7], hs2.length - 1)) :=
  ⟨by decide, materialize_callback_late_binding sampleEnvC2 "f1".toList
    sampleHashesC2 (by decide) [7]⟩

/-! ### Claim C3: FileMaterialization.write_block -/

namespace WriteBlock

/-- One GET callback thread: the byte string and block number it will pass
to `write_block`. -/
structure ThreadTask where
  bytestr : List Nat
  block_num : Nat
deriving DecidableEq

inductive TStatus where
  | notStarted
  | waiting
  | done
deriving DecidableEq

/-- The shared FileMaterialization state plus each callback thread's
status: `last_block` (initially `-1`), the blocks written to the file
object in write order, and the `flush`/`fsync`/`close` call counts. -/
structure WBState where
  lastBlock : Int
  written : List (List Nat)
  flushes : Nat
  fsyncs : Nat
  closes : Nat
  status : List TStatus
deriving DecidableEq

def initState (n : Nat) : WBState :=
  ⟨-1, [], 0, 0, 0, List.replicate n .notStarted⟩

/-- Scheduling thread `t` for one step of `write_block`.  A thread that has
not started takes the condition lock and tests
`last_block != block_num - 1`: if equal it runs the whole remainder of
`write_block` (write, increment, and on the final block flush/fsync/close);
otherwise it enters `cond.wait()`.  `write_block` contains no
`notify`/`notifyAll` call, so `cond.wait()` can never return: a waiting
thread has no transition, and threads that are done or out of range do
nothing. -/
def step (totblocks : Nat) (tasks : List ThreadTask) (s : WBState)
    (t : Nat) : WBState :=
  match tasks.get? t, s.status.get? t with
  | some task, some .notStarted =>
    if s.lastBlock = (task.block_num : Int) - 1 then
      { lastBlock := s.lastBlock + 1,
        written := s.written ++ [task.bytestr],
        flushes := if task.block_num = totblocks - 1 then s.flushes + 1
          else s.flushes,
        fsyncs := if task.block_num = totblocks - 1 then s.fsyncs + 1
          else s.fsyncs,
        closes := if task.block_num = totblocks - 1 then s.closes + 1
          else s.closes,
        status := s.status.set t .done }
    else
      { s with status := s.status.set t .waiting }
  | _, _ => s

/-- Run the callbacks under a schedule: at each step the named thread is
given the processor. -/
def run (totblocks : Nat) (tasks : List ThreadTask) (sched : List Nat) :
    WBState :=
  sched.foldl (step totblocks tasks) (initState tasks.length)

end WriteBlock

theorem stepC3_fixed (b0 b1 : List Nat) (t : Nat) :
    WriteBlock.step 2 [⟨b0, 0⟩, ⟨b1, 1⟩]
      ⟨0, [b0], 0, 0, 0, [.done, .waiting]⟩ t =
      ⟨0, [b0], 0, 0, 0, [.done, .waiting]⟩ := by
  match t with
  | 0 => rfl
  | 1 => rfl
  | n + 2 => rfl

theorem runC3_tail (b0 b1 : List Nat) (rest : List Nat) :
    List.foldl (WriteBlock.step 2 [⟨b0, 0⟩, ⟨b1, 1⟩])
      ⟨0, [b0], 0, 0, 0, [.done, .waiting]⟩ rest =
      ⟨0, [b0], 0, 0, 0, [.done, .waiting]⟩ := by
  induction rest with
  | nil => rfl
  | cons t ts ih => rw [List.foldl_cons, stepC3_fixed, ih]

/-- C3: `write_block` takes the condition lock and waits until the previous
block is written, but it never calls `notify`, so the claimed "signals the
waiters" step does not exist.  In-order callbacks do produce the file and
one fsync, but if the callback for block 1 of a two-block file merely
starts before block 0's, it waits forever: under every continuation of the
schedule the file holds only block 0, `fsync` is never called, and the
block-1 callback never returns. -/
theorem write_block_missing_notify (b0 b1 : List Nat) (rest : List Nat) :
    WriteBlock.run 2 [⟨b0, 0⟩, ⟨b1, 1⟩] [0, 1] =
      ⟨1, [b0, b1], 1, 1, 1, [.done, .done]⟩ ∧
    WriteBlock.run 2 [⟨b0, 0⟩, ⟨b1, 1⟩] (1 :: 0 :: rest) =
      ⟨0, [b0], 0, 0, 0, [.done, .waiting]⟩ ∧
    (WriteBlock.run 2 [⟨b0, 0⟩, ⟨b1, 1⟩] (1 :: 0 :: rest)).fsyncs = 0 ∧
    (WriteBlock.run 2 [⟨b0, 0⟩, ⟨b1, 1⟩] (1 :: 0 :: rest)).written = [b0] ∧
    (WriteBlock.run 2 [⟨b0, 0⟩, ⟨b1, 1⟩] (1 :: 0 :: rest)).status.get? 1 =
      some .waiting := by
  have hstuck : WriteBlock.run 2 [⟨b0, 0⟩, ⟨b1, 1⟩] (1 :: 0 :: rest) =
      ⟨0, [b0], 0, 0, 0, [.done, .waiting]⟩ := by
    rw [WriteBlock.run, List.foldl_cons, List.foldl_cons]
    exact runC3_tail b0 b1 rest
  exact ⟨rfl, hstuck, by rw [hstuck], by rw [hstuck], by rw [hstuck]; rfl⟩

/-! ### Claim C4: storage-queue worker order and backend pooling -/

namespace SQWorker

/-- The observable steps of a worker running one operation. -/
inductive Event where
  | executeOp (opId backendId : Nat)
  | removeOp (opId : Nat)
  | callbackRun (opId : Nat)
deriving DecidableEq

/-- Queue state: the backend cache `__backends` (as a list of backend ids),
the number of `backend_factory` calls so far (doubling as the next fresh
backend id), the in-flight set `__ops`, and the `__failed` flag. -/
structure SQState where
  pool : List Nat
  factoryCalls : Nat
  ops : List Nat
  failed : Bool
deriving DecidableEq

/-- `enqueue` + `__start_op`: add the op to `__ops`, then pick a backend —
popped from the cache if one is there, otherwise freshly constructed by
`backend_factory`.  Returns the new state and the chosen backend id. -/
def enqueueStartOp (s : SQState) (opId : Nat) : SQState × Nat :=
  match s.pool with
  | b :: rest => ({ s with pool := rest, ops := s.ops ++ [opId] }, b)
  | [] =>
    ({ s with factoryCalls := s.factoryCalls + 1, ops := s.ops ++ [opId] },
      s.factoryCalls)

/-- The order of steps in `StorageOperation.perform`: `execute(backend)`,
then (on success) `notify_operation_complete` — which runs `__remove_op`,
taking the op out of the in-flight set and signalling the condition — and
only after that, if a callback is present and the result was a success,
the callback.  `perform` never touches `__backends`. -/
def performEvents (opId backendId : Nat) (hasCallback success : Bool) :
    List Event :=
  Event.executeOp opId backendId ::
    Event.removeOp opId ::
    (if success && hasCallback then [Event.callbackRun opId] else [])

/-- The state effect of `__remove_op`: drop the op from `__ops` and set
`__failed` on failure.  No backend is returned to the cache — the source
has no statement anywhere that adds to `__backends`. -/
def removeOpState (s : SQState) (opId : Nat) (success : Bool) : SQState :=
  { s with ops := s.ops.erase opId, failed := s.failed || !success }

/-- Two operations run strictly one after the other on a fresh queue, each
with a callback and each succeeding. -/
def runSeqTwo (op1 op2 : Nat) : SQState × List Event :=
  let s0 : SQState := ⟨[], 0, [], false⟩
  let r1 := enqueueStartOp s0 op1
  let s2 := removeOpState r1.1 op1 true
  let r2 := enqueueStartOp s2 op2
  let s4 := removeOpState r2.1 op2 true
  (s4, performEvents op1 r1.2 true true ++ performEvents op2 r2.2 true true)

end SQWorker

/-- C4: the worker invokes a successful operation's callback only after
`__remove_op` has taken the operation out of the in-flight set and
signalled the condition — not before, so a blocking callback does not hold
a concurrency slot; and since nothing ever returns a backend to the
`__backends` cache, the factory runs for every operation: two sequential
operations on a fresh queue construct two distinct backends and leave the
pool empty. -/
theorem storagequeue_callback_after_removal :
    (∀ opId backendId : Nat,
      SQWorker.performEvents opId backendId true true =
        [.executeOp opId backendId, .removeOp opId, .callbackRun opId]) ∧
    (∀ (s : SQWorker.SQState) (opId : Nat) (success : Bool),
      (SQWorker.removeOpState s opId success).pool = s.pool ∧
      (SQWorker.removeOpState s opId success).factoryCalls =
        s.factoryCalls) ∧
    (∀ (n : Nat) (ops : List Nat) (f : Bool) (opId : Nat),
      SQWorker.enqueueStartOp ⟨[], n, ops, f⟩ opId =
        (⟨[], n + 1, ops ++ [opId], f⟩, n)) ∧
    (∀ (b : Nat) (bs : List Nat) (n : Nat) (ops : List Nat) (f : Bool)
        (opId : Nat),
      SQWorker.enqueueStartOp ⟨b :: bs, n, ops, f⟩ opId =
        (⟨bs, n, ops ++ [opId], f⟩, b)) ∧
    SQWorker.runSeqTwo 0 1 =
      (⟨[], 2, [], false⟩,
        [.executeOp 0 0, .removeOp 0, .callbackRun 0,
         .executeOp 1 1, .removeOp 1, .callbackRun 1]) :=
  ⟨fun _ _ => rfl, fun _ _ _ => ⟨rfl, rfl⟩, fun _ _ _ _ => rfl,
    fun _ _ _ _ _ _ => rfl, rfl⟩

/-! ### Claim C6: storage-queue failure poisoning -/

namespace SQFail

/-- Queue state for the failure semantics: the in-flight set `__ops` (op
ids), the `__failed` flag, and each completed operation's recorded
`(success, ...)` result (what `is_done`/`succeeded` read). -/
structure QState where
  inflight : List Nat
  failed : Bool
  results : List (Nat × Bool)
deriving DecidableEq

inductive QError where
  | operationHasFailed
  | assertionError
deriving DecidableEq

/-- The externally scheduled events: `enqueue(op)` by the front-end, and a
worker finishing `perform(op)` with the given success (which runs
`__set_result` followed by `__remove_op`). -/
inductive QEvent where
  | enq (opId : Nat)
  | finish (opId : Nat) (success : Bool)
deriving DecidableEq

/-- One event against the queue.  `enqueue` first raises
`OperationHasFailed` if `__failed` is set, otherwise admits the op (the
rate-limiting wait on `max_conc` only blocks, which no claim observes).  A
finishing worker records the op's own result, marks the queue failed on
failure, removes the op from the in-flight set and signals the condition;
an unknown op trips the `__remove_op` assertion. -/
def step (s : QState) (e : QEvent) : Except QError QState :=
  match e with
  | .enq opId =>
    if s.failed then .error .operationHasFailed
    else .ok { s with inflight := s.inflight ++ [opId] }
  | .finish opId success =>
    if opId ∈ s.inflight then
      .ok { inflight := s.inflight.erase opId,
            failed := s.failed || !success,
            results := (opId, success) :: s.results }
    else .error .assertionError

def runQ (s : QState) : List QEvent → Except QError QState
  | [] => .ok s
  | e :: es =>
    match step s e with
    | .error err => .error err
    | .ok s2 => runQ s2 es

/-- `wait()`: while any operation is in flight it blocks (`none`); once the
in-flight set is empty it returns, raising `OperationHasFailed` exactly
when the failed flag is set. -/
def waitResult (s : QState) : Option (Option QError) :=
  if s.inflight = [] then
    if s.failed then some (some .operationHasFailed) else some none
  else none

/-- `succeeded`, read from the recorded result. -/
def lookupResult (s : QState) (opId : Nat) : Option Bool :=
  (s.results.find? fun r => r.1 == opId).map fun r => r.2

end SQFail

/-- C6: a failing operation runs to completion, records its own failure
result and sets the queue's failed flag; the flag, once set, is never
cleared by a later step, and every `enqueue` issued while it is set raises
immediately; recorded results are never dropped, so each completed
operation stays queryable; and `wait()` blocks exactly while operations
are in flight, then raises exactly when some operation failed. -/
theorem storagequeue_failure_poisoning :
    (∀ (s : SQFail.QState) (opId : Nat), opId ∈ s.inflight →
      SQFail.step s (.finish opId false) =
        .ok { inflight := s.inflight.erase opId, failed := true,
              results := (opId, false) :: s.results }) ∧
    (∀ (s : SQFail.QState) (opId : Nat), s.failed = true →
      SQFail.step s (.enq opId) = .error .operationHasFailed) ∧
    (∀ (s : SQFail.QState) (e : SQFail.QEvent) (s2 : SQFail.QState),
      SQFail.step s e = .ok s2 → s.failed = true → s2.failed = true) ∧
    (∀ (s : SQFail.QState) (e : SQFail.QEvent) (s2 : SQFail.QState)
        (r : Nat × Bool),
      SQFail.step s e = .ok s2 → r ∈ s.results → r ∈ s2.results) ∧
    (∀ s : SQFail.QState, s.inflight ≠ [] → SQFail.waitResult s = none) ∧
    (∀ s : SQFail.QState, s.inflight = [] →
      SQFail.waitResult s =
        if s.failed then some (some .operationHasFailed) else some none) := by
  refine ⟨?_, ?_, ?_, ?_, ?_, ?_⟩
  · intro s opId hmem
    rw [SQFail.step, if_pos hmem]
    rw [show (s.failed || !false) = true from by simp]
  · intro s opId hf
    rw [SQFail.step, hf]
    rfl
  · intro s e s2 hstep hf
    match e with
    | .enq opId =>
      rw [SQFail.step, hf] at hstep
      exact Except.noConfusion hstep
    | .finish opId success =>
      rw [SQFail.step] at hstep
      by_cases hmem : opId ∈ s.inflight
      · rw [if_pos hmem] at hstep
        have := Except.ok.inj hstep
        rw [← this, hf]
        simp
      · rw [if_neg hmem] at hstep
        exact Except.noConfusion hstep
  · intro s e s2 r hstep hr
    match e with
    | .enq opId =>
      rw [SQFail.step] at hstep
      by_cases hf : s.failed
      · rw [if_pos hf] at hstep
        exact Except.noConfusion hstep
      · rw [if_neg hf] at hstep
        have := Except.ok.inj hstep
        rw [← this]
        exact hr
    | .finish opId success =>
      rw [SQFail.step] at hstep
      by_cases hmem : opId ∈ s.inflight
      · rw [if_pos hmem] at hstep
        have := Except.ok.inj hstep
        rw [← this]
        exact List.mem_cons_of_mem _ hr
      · rw [if_neg hmem] at hstep
        exact Except.noConfusion hstep
  · intro s hne
    rw [SQFail.waitResult, if_neg hne]
  · intro s hemp
    rw [SQFail.waitResult, if_pos hemp]

/-- C6 witness: the failure semantics at a concrete queue — op 0 failing
out of in-flight set `[0, 1]`, an enqueue against the poisoned queue, and
`wait()` against a busy and an idle poisoned queue. -/
theorem storagequeue_failure_poisoning_witness :
    (0 ∈ ([0, 1] : List Nat)) ∧
    SQFail.step ⟨[0, 1], false, []⟩ (.finish 0 false) =
      .ok { inflight := ([0, 1] : List Nat).erase 0, failed := true,
            results := [(0, false)] } ∧
    SQFail.step ⟨[], true, [(0, false)]⟩ (.enq 2) =
      .error .operationHasFailed ∧
    SQFail.waitResult ⟨[1], true, [(0, false)]⟩ = none ∧
    SQFail.waitResult ⟨[], true, [(0, false)]⟩ =
      if true then some (some .operationHasFailed) else some none :=
  ⟨by decide,
    storagequeue_failure_poisoning.1 ⟨[0, 1], false, []⟩ 0 (by decide),
    storagequeue_failure_poisoning.2.1 ⟨[], true, [(0, false)]⟩ 2 rfl,
    storagequeue_failure_poisoning.2.2.2.2.1 ⟨[1], true, [(0, false)]⟩
      (by decide),
    storagequeue_failure_poisoning.2.2.2.2.2 ⟨[], true, [(0, false)]⟩ rfl⟩
